import Mathlib

/-!
A verification development for the `PseudoNetCDF.sci_var` module: an in-memory
netCDF-like data model (dimensions, attributed variables, datasets) together
with its dimension-indexed transformations (`slice_dim`, `reduce_dim`,
`extract`, `getvarpnc`), its lazy variable registry (`PseudoNetCDFVariables`)
and the helper `get_dimension_length`.

The Python code is embedded shallowly: numpy arrays become a shape plus a
total valuation over exact rationals (floating point is modelled exactly),
Python dictionaries become insertion-ordered association lists, attribute
access becomes lookups in an explicit attribute dictionary, and raising code
returns `Option`/`Except`.  String handling (`split`, `isdigit`, `strip`,
`eval` of integer literals) is re-implemented over character lists so that
all definitions evaluate by kernel reduction.
-/

namespace PNC

/-! ### Association lists: Python dictionaries with insertion order -/

/-- Python `d[k]` as an `Option` (a `none` is a `KeyError`). -/
def getA {α : Type} : List (String × α) → String → Option α
  | [], _ => none
  | p :: l, k => if p.1 == k then some p.2 else getA l k

/-- Python `d[k] = v`: replace the existing binding in place, else append
(keys are unique in a Python dictionary). -/
def setA {α : Type} : List (String × α) → String → α → List (String × α)
  | [], k, v => [(k, v)]
  | p :: l, k, v => if p.1 == k then (k, v) :: l else p :: setA l k v

/-- Python `d.keys()` (insertion order). -/
def keysA {α : Type} (l : List (String × α)) : List String := l.map (·.1)

/-- Python `del d[k]`. -/
def eraseKeyA {α : Type} (l : List (String × α)) (k : String) : List (String × α) :=
  l.filter (fun p => p.1 != k)

/-! ### String primitives (kernel-reducible re-implementations) -/

/-- Python `s.split(sep)` for a one-character separator. -/
def splitChar (sep : Char) (s : String) : List String :=
  (s.data.foldr (fun c acc =>
      match acc with
      | cur :: rest => if c = sep then [] :: (cur :: rest) else (c :: cur) :: rest
      | [] => [[c]]) [[]]).map (fun cs => (⟨cs⟩ : String))

/-- Python `str.isdigit` (ASCII digits). -/
def pyIsDigit (s : String) : Bool := !s.data.isEmpty && s.data.all Char.isDigit

/-- Python `k[:1] == c` for a single character `c`. -/
def firstCharIs (s : String) (c : Char) : Bool := s.data.take 1 == [c]

/-- Python `s[:n]`. -/
def strTake (s : String) (n : Nat) : String := ⟨s.data.take n⟩

/-- Python `s[n:]`. -/
def strDrop (s : String) (n : Nat) : String := ⟨s.data.drop n⟩

/-- Python `len(s)`. -/
def strLen (s : String) : Nat := s.data.length

/-- Python `str.strip()`. -/
def pyStrip (s : String) : String :=
  ⟨((s.data.dropWhile (·.isWhitespace)).reverse.dropWhile (·.isWhitespace)).reverse⟩

/-- Python `str.split()` with no argument (here: split on spaces, drop empties). -/
def pySplitWS (s : String) : List String := (splitChar ' ' s).filter (fun t => !t.data.isEmpty)

/-- Python `sub in s` (substring test) over character lists. -/
def charsContain (sub : List Char) : List Char → Bool
  | [] => sub.isEmpty
  | c :: cs => sub.isPrefixOf (c :: cs) || charsContain sub cs

/-- Python `sub in s` (substring test). -/
def pyIn (sub s : String) : Bool := charsContain sub.data s.data

/-- decimal digit characters of a natural number, most significant first. -/
def natDigitsAux : Nat → Nat → List Char
  | 0, _ => []
  | fuel+1, n =>
    if n < 10 then [Char.ofNat (48 + n)]
    else natDigitsAux fuel (n / 10) ++ [Char.ofNat (48 + n % 10)]

/-- Python `repr` of a natural number. -/
def natRepr (n : Nat) : String := ⟨natDigitsAux (n + 1) n⟩

/-- Python `repr` of an integer. -/
def intRepr (i : Int) : String := if i < 0 then "-" ++ natRepr i.natAbs else natRepr i.toNat

/-- Python `'%s' % x` for an `int`-or-`None` value. -/
def optIntRepr : Option Int → String
  | none => "None"
  | some i => intRepr i

def digitVal (c : Char) : Nat := c.toNat - 48

def natOfDigits (cs : List Char) : Nat := cs.foldl (fun a c => a * 10 + digitVal c) 0

/-- Python `eval` restricted to what transformation specs contain: an integer
literal or `None`.  A result `none` models an `eval` failure; `some none` is
Python's `None`. -/
def evalTok (s : String) : Option (Option Int) :=
  if s == "None" then some none
  else match s.data with
    | [] => none
    | '-' :: rest =>
      if !rest.isEmpty && rest.all Char.isDigit then some (some (-(natOfDigits rest : Int)))
      else none
    | cs => if cs.all Char.isDigit then some (some (natOfDigits cs : Int)) else none

/-- lexicographic comparison of character lists (Python string order). -/
def charListLe : List Char → List Char → Bool
  | [], _ => true
  | _ :: _, [] => false
  | a :: as, b :: bs => if a < b then true else if a = b then charListLe as bs else false

def strLeB (a b : String) : Bool := charListLe a.data b.data

def insertSorted (x : String) : List String → List String
  | [] => [x]
  | y :: ys => if strLeB x y then x :: y :: ys else y :: insertSorted x ys

/-- Python `list.sort()` on strings (insertion sort; stable, lexicographic). -/
def sortStr (l : List String) : List String := l.foldr insertSorted []

def dedupAux : List String → List String → List String
  | _, [] => []
  | seen, x :: xs => if seen.contains x then dedupAux seen xs else x :: dedupAux (x :: seen) xs

/-- Python `set(l)` where only membership and a deterministic iteration order
matter: duplicates removed, first occurrences kept. -/
def dedupFirst (l : List String) : List String := dedupAux [] l

/-- Python `s.add(k)` on a set modelled as a duplicate-free list. -/
def addKeyOnce (l : List String) (k : String) : List String :=
  if l.contains k then l else l ++ [k]

/-- Python `sep.join(l)`. -/
def joinSep (sep : String) : List String → String
  | [] => ""
  | [x] => x
  | x :: y :: xs => x ++ sep ++ joinSep sep (y :: xs)

/-- Python `list.index` (first occurrence; callers guard membership). -/
def pyIndex : List String → String → Nat
  | [], _ => 0
  | x :: xs, k => if x == k then 0 else pyIndex xs k + 1

/-- an apostrophe character, as used by Python `repr` of strings. -/
def sq : String := ⟨[Char.ofNat 39]⟩

/-- Python `repr` of a list of strings. -/
def pyListReprStr (l : List String) : String :=
  "[" ++ joinSep ", " (l.map (fun s => sq ++ s ++ sq)) ++ "]"

/-- Python `repr` of a bool. -/
def pyBoolRepr (b : Bool) : String := if b then "True" else "False"

/-! ### Python attribute dictionaries and the variable/file `__setattr__` -/

/-- values stored in an attribute dictionary, as needed by this module. -/
inductive PyV where
  | vstr : String → PyV
  | vint : Int → PyV
  | vstrs : List String → PyV
  | vmap : PyV
  deriving DecidableEq, Repr

abbrev PyDict := List (String × PyV)

/-- `hasattr(x, k)` against the instance dictionary (the attribute names this
module records never collide with `ndarray` class members, which are not
modelled). -/
def hasattrD (d : PyDict) (k : String) : Bool := (getA d k).isSome

/-- decode `x._ncattrs` (a tuple of strings). -/
def ncattrsD (d : PyDict) : List String :=
  match getA d "_ncattrs" with
  | some (.vstrs l) => l
  | _ => []

/-- `PseudoNetCDFVariable.__setattr__(self, k, v)`: a not-yet-present,
non-underscore name is appended to `self._ncattrs` before the value is stored. -/
def varSetattr (d : PyDict) (k : String) (v : PyV) : PyDict :=
  let d' := if !hasattrD d k && !firstCharIs k '_' then
      setA d "_ncattrs" (.vstrs (ncattrsD d ++ [k]))
    else d
  setA d' k v

/-- `PseudoNetCDFVariable.__array_finalize__(self, obj)` for a freshly derived
array: `self` starts with an empty instance dictionary and `obj` is the parent
(never `None` for slices, axis swaps, arithmetic results and reductions). -/
def arrayFinalize (obj : PyDict) : PyDict :=
  let s : PyDict := []
  let s :=
    if !hasattrD s "_ncattrs" then
      let s := varSetattr s "_ncattrs" (.vstrs [])
      if hasattrD obj "_ncattrs" then
        (ncattrsD obj).foldl (fun t k => varSetattr t k ((getA obj k).getD (.vint 0))) s
      else s
    else s
  if !hasattrD s "dimensions" then
    if hasattrD obj "dimensions" then
      let s := varSetattr s "dimensions" ((getA obj "dimensions").getD (.vint 0))
      varSetattr s "_ncattrs" (.vstrs (ncattrsD s).dropLast)
    else s
  else s

/-- a `PseudoNetCDFVariable` as the numpy machinery sees it: an array shape
plus the instance dictionary holding `_ncattrs`, `dimensions` and the user
attributes. -/
structure DynVar where
  shape : List Nat
  dict : PyDict
  deriving DecidableEq, Repr

/-- any numpy operation producing a derived array of the same class (a slice,
an axis swap, an elementwise arithmetic result, or an axis-reducing
scalar-returning aggregation): numpy allocates the result with the stated
shape and a fresh instance dictionary, then runs `__array_finalize__` with
the parent as `obj`. -/
def derive (parent : DynVar) (newShape : List Nat) : DynVar :=
  ⟨newShape, arrayFinalize parent.dict⟩

/-- decode the `dimensions` tuple of a variable dictionary. -/
def dimsD (d : PyDict) : List String :=
  match getA d "dimensions" with
  | some (.vstrs l) => l
  | _ => []

/-- names excluded from the file attribute tuple by
`PseudoNetCDFFile.__setattr__`. -/
def recordedName (k : String) : Bool :=
  !(firstCharIs k '_' || k == "dimensions" || k == "variables" || k == "groups")

/-- `PseudoNetCDFFile.__setattr__(self, k, v)`: every assignment to a
non-reserved name appends the name to `self._ncattrs` (there is no
`hasattr` guard), then the value is stored. -/
def fileSetattrD (d : PyDict) (k : String) (v : PyV) : PyDict :=
  let d' := if recordedName k then setA d "_ncattrs" (.vstrs (ncattrsD d ++ [k])) else d
  setA d' k v

/-- `PseudoNetCDFFile.__new__`: assigns `variables = {}`, `dimensions = {}`
and `_ncattrs = ()` through the intercepting `__setattr__`. -/
def pncFileNewD : PyDict :=
  fileSetattrD (fileSetattrD (fileSetattrD [] "variables" .vmap) "dimensions" .vmap)
    "_ncattrs" (.vstrs [])

/-- a sequence of attribute assignments on a Dataset. -/
def applyAssigns (d : PyDict) (asgs : List (String × PyV)) : PyDict :=
  asgs.foldl (fun t p => fileSetattrD t p.1 p.2) d

/-! ### `get_dimension_length` (dynamic attribute model) -/

inductive PyErr where
  | attributeError
  | keyError
  deriving DecidableEq, Repr

/-- a value of the (misspelled) `dimsensions` mapping: `None`, a plain
integer, or an object with a `len()`. -/
inductive GDim where
  | gnone : GDim
  | gint : Int → GDim
  | gobj : Nat → GDim
  deriving DecidableEq, Repr

structure GVar where
  dimensions : List String
  shape : List Nat
  deriving DecidableEq, Repr

/-- the file object as `get_dimension_length` sees it: the value of the
attribute literally spelled `dimsensions` (if the object has one), and the
variable mapping.  A Dataset built through `PseudoNetCDFFile` defines
`dimensions`, never `dimsensions`, so its field here is `none`. -/
structure GFile where
  dimsensionsAttr : Option (List (String × GDim))
  vars : List (String × GVar)
  deriving DecidableEq, Repr

/-- `get_dimension_length(pfile, key)`, translated line by line: the very
first expression evaluated is `pfile.dimsensions[key]`. -/
def get_dimension_length (pfile : GFile) (key : String) : Except PyErr Int :=
  match pfile.dimsensionsAttr with
  | none => .error .attributeError
  | some dims =>
    match getA dims key with
    | none => .error .keyError
    | some .gnone =>
      match pfile.vars.find? (fun p => p.2.dimensions.contains key) with
      | some p => .ok (p.2.shape.getD (pyIndex p.2.dimensions key) 0 : Nat)
      | none => .ok 0
    | some (.gint n) => .ok n
    | some (.gobj l) => .ok (l : Nat)

/-! ### n-dimensional arrays over exact rationals -/

/-- an n-dimensional numpy array: a shape and a total valuation (only indices
componentwise below the shape are meaningful). -/
structure NDArr where
  shape : List Nat
  val : List Nat → ℚ

/-- all valid indices of a shape, row-major. -/
def allIdxs : List Nat → List (List Nat)
  | [] => [[]]
  | n :: rest => ((List.range n).map (fun i => (allIdxs rest).map (fun t => i :: t))).flatten

/-- swap positions `i` and `j` of a list (out-of-range positions untouched
except as numpy would fail; callers keep `i, j` below the rank). -/
def swapIdx (l : List Nat) (i j : Nat) : List Nat :=
  (l.set i (l.getD j 0)).set j (l.getD i 0)

/-- numpy `a.swapaxes(i, j)`. -/
def NDArr.swapaxes (a : NDArr) (i j : Nat) : NDArr :=
  ⟨swapIdx a.shape i j, fun idx => a.val (swapIdx idx i j)⟩

/-- the indices selected by the Python slice `[start:stop:stride]` on an axis
of length `n` (CPython `PySlice_AdjustIndices` semantics; a zero stride would
raise and is never exercised here). -/
def pySliceIdxs (startO stopO stepO : Option Int) (n : Nat) : List Int :=
  let step : Int := stepO.getD 1
  if step = 0 then []
  else if 0 < step then
    let lo : Int := match startO with
      | none => 0
      | some s => if s < 0 then max (s + n) 0 else min s n
    let hi : Int := match stopO with
      | none => n
      | some s => if s < 0 then max (s + n) 0 else min s n
    let cnt : Nat := if lo < hi then ((hi - lo - 1) / step + 1).toNat else 0
    (List.range cnt).map (fun (i : Nat) => lo + step * (i : Int))
  else
    let lo : Int := match startO with
      | none => (n : Int) - 1
      | some s => if s < 0 then max (s + n) (-1) else min s ((n : Int) - 1)
    let hi : Int := match stopO with
      | none => -1
      | some s => if s < 0 then max (s + n) (-1) else min s ((n : Int) - 1)
    let cnt : Nat := if hi < lo then ((lo - hi - 1) / (-step) + 1).toNat else 0
    (List.range cnt).map (fun (i : Nat) => lo + step * (i : Int))

/-- numpy `a[start:stop:stride]` (a basic slice along axis 0). -/
def NDArr.sliceAxis0 (a : NDArr) (startO stopO stepO : Option Int) : NDArr :=
  let idxs := pySliceIdxs startO stopO stepO (a.shape.headD 0)
  ⟨idxs.length :: a.shape.tail,
   fun idx => a.val ((idxs.getD (idx.headD 0) 0).toNat :: idx.tail)⟩

/-- numpy `a[(slice(None),) * p + (None,)]`: insert a length-1 axis at
position `p`. -/
def NDArr.newaxisAt (a : NDArr) (p : Nat) : NDArr :=
  ⟨a.shape.insertIdx p 1, fun idx => a.val (idx.eraseIdx p)⟩

/-- numpy `np.mean(a, axis = ax)` over exact rationals. -/
def NDArr.npmean (a : NDArr) (ax : Nat) : NDArr :=
  let n := a.shape.getD ax 0
  ⟨a.shape.eraseIdx ax,
   fun idx => (((List.range n).map (fun j => a.val (idx.insertIdx ax j))).sum) / (n : ℚ)⟩

/-- numpy `np.sum(a, axis = ax)`. -/
def NDArr.npsum (a : NDArr) (ax : Nat) : NDArr :=
  ⟨a.shape.eraseIdx ax,
   fun idx => ((List.range (a.shape.getD ax 0)).map (fun j => a.val (idx.insertIdx ax j))).sum⟩

/-- the broadcast of two shapes, right-aligned (numpy would raise on
incompatible entries; the transformations only broadcast compatible pairs). -/
def bshapeRev : List Nat → List Nat → List Nat
  | [], l => l
  | l, [] => l
  | a :: as, b :: bs => (max a b) :: bshapeRev as bs

def bshape (s1 s2 : List Nat) : List Nat := (bshapeRev s1.reverse s2.reverse).reverse

/-- project a broadcast-result index onto an operand's index. -/
def bproj (idx : List Nat) (outLen : Nat) (inShape : List Nat) : List Nat :=
  ((idx.drop (outLen - inShape.length)).zip inShape).map (fun p => if p.2 = 1 then 0 else p.1)

/-- an elementwise numpy binary operation with broadcasting. -/
def NDArr.binop (op : ℚ → ℚ → ℚ) (a b : NDArr) : NDArr :=
  let sh := bshape a.shape b.shape
  ⟨sh, fun idx => op (a.val (bproj idx sh.length a.shape)) (b.val (bproj idx sh.length b.shape))⟩

/-- numpy `np.array(a, ndmin = d)`: left-pad the shape with 1s. -/
def NDArr.ndminTo (a : NDArr) (d : Nat) : NDArr :=
  let pad := d - a.shape.length
  ⟨List.replicate pad 1 ++ a.shape, fun idx => a.val (idx.drop pad)⟩

/-- numpy `a[(slice(None),) * ax + (slice(0, stop),)]`. -/
def NDArr.restrictAxis0to (a : NDArr) (ax : Nat) (stop : Nat) : NDArr :=
  let idxs := pySliceIdxs (some 0) (some (stop : Int)) none (a.shape.getD ax 0)
  ⟨a.shape.set ax idxs.length,
   fun idx => a.val (idx.set ax ((idxs.getD (idx.getD ax 0) 0).toNat))⟩

/-- numpy `a.min()` (all elements; 0 for an empty array, which numpy rejects
and the transformations never produce). -/
def NDArr.minAll (a : NDArr) : ℚ :=
  match (allIdxs a.shape).map a.val with
  | [] => 0
  | x :: xs => xs.foldl min x

/-- numpy `a.max()`. -/
def NDArr.maxAll (a : NDArr) : ℚ :=
  match (allIdxs a.shape).map a.val with
  | [] => 0
  | x :: xs => xs.foldl max x

/-- `vout[0] = var.min(), var.max()`: numpy broadcasts the pair into the
first subarray along axis 0; this is well-typed only when the last axis has
length 2, the standing invariant for `_bounds`/`_bnds` variables. -/
def NDArr.setFirstToPair (a : NDArr) (mn mx : ℚ) : NDArr :=
  ⟨a.shape, fun idx =>
     if idx.headD 0 = 0 then (if idx.getD (a.shape.length - 1) 0 = 0 then mn else mx)
     else a.val idx⟩

/-! ### the structured Dataset model -/

/-- `PseudoNetCDFDimension`: a length and an unlimited flag
(`__init__` stores `int(size)` and `False`). -/
structure PDim where
  len : Nat
  unlimited : Bool
  deriving DecidableEq, Repr

/-- a `PseudoNetCDFVariable` held by a Dataset: the array, the dimension-name
tuple, and the user attributes with their recorded name tuple `_ncattrs`. -/
structure PVar where
  arr : NDArr
  dimensions : List String
  ncattrs : List String
  attrs : List (String × PyV)

/-- a `PseudoNetCDFFile`: dimension mapping, variable mapping, and the file
attributes with their recorded name tuple `_ncattrs`. -/
structure PFile where
  dimensions : List (String × PDim)
  vars : List (String × PVar)
  fncattrs : List String
  fattrs : List (String × PyV)

/-- `PseudoNetCDFFile()`: empty mappings, empty attribute tuple. -/
def pncFileNew : PFile := ⟨[], [], [], []⟩

/-- `f.createDimension(name, length)`: registers a fresh Dimension (unlimited
flag `False`), overwriting any prior one of the same name. -/
def PFile.createDimension (f : PFile) (name : String) (length : Nat) : PFile :=
  { f with dimensions := setA f.dimensions name ⟨length, false⟩ }

/-- `f.dimensions[name].setunlimited(u)`. -/
def PFile.setDimUnlimited (f : PFile) (name : String) (u : Bool) : PFile :=
  { f with dimensions :=
      match getA f.dimensions name with
      | some d => setA f.dimensions name ⟨d.len, u⟩
      | none => f.dimensions }

/-- `setattr(f, k, v)` on a Dataset (the intercepting `__setattr__`:
every non-reserved name is appended to the file `_ncattrs`). -/
def PFile.putAttr (f : PFile) (k : String) (v : PyV) : PFile :=
  let f' := if recordedName k then { f with fncattrs := f.fncattrs ++ [k] } else f
  { f' with fattrs := setA f'.fattrs k v }

/-- `getattr(f, k, dflt)` decoded as a string. -/
def PFile.getAttrStr (f : PFile) (k : String) (dflt : String) : String :=
  match getA f.fattrs k with
  | some (.vstr s) => s
  | _ => dflt

/-- `hasattr(v, k)` for a variable's user attributes. -/
def PVar.hasattrP (v : PVar) (k : String) : Bool := (getA v.attrs k).isSome

/-- `setattr(v, k, val)` on a variable (the `PseudoNetCDFVariable`
`__setattr__`: only a not-yet-present non-underscore name is recorded). -/
def PVar.setAttrP (v : PVar) (k : String) (val : PyV) : PVar :=
  let v' := if !v.hasattrP k && !firstCharIs k '_' then { v with ncattrs := v.ncattrs ++ [k] } else v
  { v' with attrs := setA v'.attrs k val }

/-- `getattr(v, k, dflt)` decoded as a string. -/
def PVar.getAttrStrP (v : PVar) (k : String) (dflt : String) : String :=
  match getA v.attrs k with
  | some (.vstr s) => s
  | _ => dflt

/-- the fuzzy-dimension scan shared by `slice_dim` and `reduce_dim`:
`[key for key in f.dimensions if dimkey == key[:len(dimkey)] and key[len(dimkey):].isdigit()]`. -/
def fuzzySiblings (dims : List (String × PDim)) (dimkey : String) : List String :=
  (keysA dims).filter (fun key =>
    dimkey == strTake key (strLen dimkey) && pyIsDigit (strDrop key (strLen dimkey)))

/-! ### `slice_dim` -/

/-- the history fragment recorded by `slice_dim`. -/
def sliceHistoryDef (slicedef : String) (fuzzydim : Bool) : String :=
  "slice_dim(f, " ++ slicedef ++ ", fuzzydim = " ++ pyBoolRepr fuzzydim ++ "); "

/-- the bound defaulting of `slice_dim` after `eval`: a lone `start` gets
`stop = start + 1` appended (`None + 1` would raise), the list is padded with
one `None` and truncated to four entries; unpacking then needs exactly four. -/
def parseSliceEvaled (dimkey : String) (vals : List (Option Int)) :
    Option (String × Option Int × Option Int × Option Int) :=
  let vals2 : Option (List (Option Int)) :=
    if vals.length = 1 then
      match vals with
      | [some v] => some [some v, some (v + 1)]
      | _ => none
    else some vals
  match vals2 with
  | none => none
  | some vs =>
    match (vs ++ [none]).take 3 with
    | [a, b, c] => some (dimkey, a, b, c)
    | _ => none

/-- `slicedef.split(',')` followed by `eval` of the bounds and the
defaulting above. -/
def parseSliceDef (s : String) : Option (String × Option Int × Option Int × Option Int) :=
  match splitChar ',' s with
  | [] => none
  | dimkey :: rest =>
    match rest.mapM evalTok with
    | none => none
    | some vals => parseSliceEvaled dimkey vals

/-- the number of indices selected by a slice on an axis of length `n`. -/
def sliceExtent (startO stopO stepO : Option Int) (n : Nat) : Nat :=
  (pySliceIdxs startO stopO stepO n).length

/-- `var[...].swapaxes(0, axis)[dmin:dmax:dstride].swapaxes(0, axis)`: the
sliced array of one variable in `slice_dim` (`axis` is the position of
`dimkey` in the variable's dimension tuple). -/
def sliceVout (dmin dmax dstride : Option Int) (dimkey : String) (var : PVar) : NDArr :=
  ((var.arr.swapaxes 0 (pyIndex var.dimensions dimkey)).sliceAxis0 dmin dmax dstride).swapaxes 0
    (pyIndex var.dimensions dimkey)

/-- the body of `slice_dim`'s per-variable loop for one variable key: a
variable referencing `dimkey` is replaced by its slice (the derived view
keeps the dimension tuple and attributes), and the Dimension is re-created
with the new length and the previously read unlimited flag. -/
def sliceVarStep (dimkey : String) (dmin dmax dstride : Option Int) (unlimited : Bool)
    (f : PFile) (varkey : String) : PFile :=
  match getA f.vars varkey with
  | none => f
  | some var =>
    if var.dimensions.contains dimkey then
      let axis := pyIndex var.dimensions dimkey
      let vout := sliceVout dmin dmax dstride dimkey var
      let newlen := vout.shape.getD axis 0
      let f1 := (f.createDimension dimkey newlen).setDimUnlimited dimkey unlimited
      { f1 with vars := setA f1.vars varkey { var with arr := vout } }
    else f

/-- `slice_dim(f, slicedef, fuzzydim)`, with fuel bounding the fuzzy
recursion depth (each recursive call targets a strictly longer dimension
name, so any fuel above the longest name suffices).  The function mutates
`f` in place and returns it: the result is the post-state of the argument. -/
def slice_dimF : Nat → PFile → String → Bool → Option PFile
  | 0, _, _, _ => none
  | fuel+1, f, slicedef, fuzzydim =>
    let historydef := sliceHistoryDef slicedef fuzzydim
    match parseSliceDef slicedef with
    | none => none
    | some (dimkey, dmin, dmax, dstride) =>
      match getA f.dimensions dimkey with
      | none => none
      | some dim0 =>
        let unlimited := dim0.unlimited
        let ff : Option PFile :=
          if fuzzydim then
            (fuzzySiblings f.dimensions dimkey).foldlM
              (fun g dimk => slice_dimF fuel g
                (dimk ++ "," ++ optIntRepr dmin ++ "," ++ optIntRepr dmax ++ ","
                  ++ optIntRepr dstride) true) f
          else some f
        match ff with
        | none => none
        | some f1 =>
          let f2 := (keysA f1.vars).foldl (sliceVarStep dimkey dmin dmax dstride unlimited) f1
          some (f2.putAttr "history" (.vstr (f2.getAttrStr "history" "" ++ historydef)))

/-- fuel sufficient for any chain of fuzzy siblings. -/
def sliceFuel (f : PFile) : Nat := ((keysA f.dimensions).map strLen).foldl max 0 + 2

def slice_dim (f : PFile) (slicedef : String) (fuzzydim : Bool) : Option PFile :=
  slice_dimF (sliceFuel f) f slicedef fuzzydim

/-! ### `reduce_dim` -/

/-- the module's default `metakeys` argument. -/
def defaultMetakeys : List String :=
  ["time", "layer", "level", "latitude", "longitude", "time_bounds",
   "latitude_bounds", "longitude_bounds", "ROW", "COL", "LAY", "TFLAG", "ETFLAG"]

/-- the history fragment recorded by `reduce_dim`. -/
def reduceHistoryDef (reducedef : String) (fuzzydim : Bool) (metakeys : List String) : String :=
  "reduce_dim(f, " ++ reducedef ++ ", fuzzydim = " ++ pyBoolRepr fuzzydim ++ ", metakeys = "
    ++ pyListReprStr metakeys ++ "); "

/-- `reducedef.split(',')` unpacked by comma count: `(dimkey, func,
numerator-weight key?, denominator-weight key?)`; any other comma count
leaves names unbound and raises. -/
def parseReduceDef (s : String) : Option (String × String × Option String × Option String) :=
  match splitChar ',' s with
  | [dimkey, func, nw, dw] => some (dimkey, func, some nw, some dw)
  | [dimkey, func, nw] => some (dimkey, func, some nw, none)
  | [dimkey, func] => some (dimkey, func, none, none)
  | _ => none

/-- `getattr(np, func)` for the aggregators this module exercises by name
(an unknown name raises `AttributeError` at the call site). -/
def npAgg (func : String) : Option (NDArr → Nat → NDArr) :=
  if func == "mean" then some NDArr.npmean
  else if func == "sum" then some NDArr.npsum
  else none

/-- the body of `reduce_dim`'s per-variable loop for one variable key. -/
def reduceVarStep (dimkey func : String) (numw denw : Option PVar) (metakeys : List String)
    (f : PFile) (varkey : String) : Option PFile :=
  match getA f.vars varkey with
  | none => some f
  | some var =>
    if var.dimensions.contains dimkey then
      let axis := pyIndex var.dimensions dimkey
      match npAgg func with
      | none => none
      | some agg =>
        let vout : PVar :=
          if !(metakeys.contains varkey) then
            match numw with
            | none => { var with arr := agg (var.arr.newaxisAt (axis + 1)) axis }
            | some nw =>
              match denw with
              | none =>
                let w := (nw.arr.ndminTo var.arr.shape.length).restrictAxis0to axis
                  (var.arr.shape.getD axis 0)
                let wvar := { var with arr := NDArr.binop (· * ·) var.arr w }
                let v1 := { wvar with arr := agg (wvar.arr.newaxisAt (axis + 1)) axis }
                let v2 := v1.setAttrP "units"
                  (.vstr (pyStrip (v1.getAttrStrP "units" "") ++ " * "
                    ++ pyStrip (nw.getAttrStrP "units" "")))
                if v2.hasattrP "base_units" then
                  v2.setAttrP "base_units"
                    (.vstr (pyStrip (v2.getAttrStrP "base_units" "") ++ " * "
                      ++ pyStrip (nw.getAttrStrP "base_units" "")))
                else v2
              | some dw =>
                let nwv := NDArr.binop (· * ·) var.arr
                  ((nw.arr.ndminTo var.arr.shape.length).restrictAxis0to axis
                    (var.arr.shape.getD axis 0))
                let den := ((dw.arr.ndminTo var.arr.shape.length).restrictAxis0to axis
                  (var.arr.shape.getD axis 0)).newaxisAt (axis + 1)
                { var with arr :=
                    (NDArr.binop (· / ·) (agg (nwv.newaxisAt (axis + 1)) axis) (agg den axis)) }
          else
            if !(pyIn "_bounds" varkey) && !(pyIn "_bnds" varkey) then
              { var with arr := agg (var.arr.newaxisAt (axis + 1)) axis }
            else
              let v0 := agg (var.arr.newaxisAt (axis + 1)) axis
              { var with arr := v0.setFirstToPair var.arr.minAll var.arr.maxAll }
        some { f with vars :=
                (setA f.vars varkey (PVar.mk vout.arr var.dimensions vout.ncattrs vout.attrs)) }
    else some f

/-- `reduce_dim(f, reducedef, fuzzydim, metakeys)` with fuel as in
`slice_dim`.  The weight variables are looked up once, before the fuzzy
recursion; the fuzzy recursion passes the default `metakeys`.  The function
mutates `f` in place and returns it. -/
def reduce_dimF : Nat → PFile → String → Bool → List String → Option PFile
  | 0, _, _, _, _ => none
  | fuel+1, f, reducedef, fuzzydim, metakeys0 =>
    let metakeys := metakeys0.filter (fun k => (getA f.vars k).isSome)
    let historydef := reduceHistoryDef reducedef fuzzydim metakeys
    match parseReduceDef reducedef with
    | none => none
    | some (dimkey, func, numwkey, denwkey) =>
      let numwO : Option (Option PVar) :=
        match numwkey with
        | none => some none
        | some k => (getA f.vars k).map some
      let denwO : Option (Option PVar) :=
        match denwkey with
        | none => some none
        | some k => (getA f.vars k).map some
      match numwO, denwO with
      | some numw, some denw =>
        let ff : Option PFile :=
          if fuzzydim then
            (fuzzySiblings f.dimensions dimkey).foldlM
              (fun g dimk => reduce_dimF fuel g
                (dimk ++ "," ++ func
                  ++ (match numwkey with | none => "" | some k => "," ++ k)
                  ++ (match denwkey with | none => "" | some k => "," ++ k))
                true defaultMetakeys) f
          else some f
        match ff with
        | none => none
        | some f1 =>
          match getA f1.dimensions dimkey with
          | none => none
          | some dim0 =>
            let unlimited := dim0.unlimited
            let f2 := f1.createDimension dimkey 1
            let f3 := if unlimited then f2.setDimUnlimited dimkey true else f2
            match (keysA f3.vars).foldlM (reduceVarStep dimkey func numw denw metakeys) f3 with
            | none => none
            | some f4 =>
              some (f4.putAttr "history" (.vstr (f4.getAttrStr "history" "" ++ historydef)))
      | _, _ => none

def reduce_dim (f : PFile) (reducedef : String) (fuzzydim : Bool) (metakeys : List String) :
    Option PFile :=
  reduce_dimF (sliceFuel f) f reducedef fuzzydim metakeys

/-! ### `extract` -/

/-- first index of the minimal element (numpy `argmin` over the flattened
array; ties resolved to the first occurrence). -/
def argminList (l : List ℚ) : Nat :=
  match l with
  | [] => 0
  | x :: xs => (xs.foldl (fun (p : Nat × ℚ × Nat) v =>
      if v < p.2.1 then (p.2.2, v, p.2.2 + 1) else (p.1, p.2.1, p.2.2 + 1)) (0, x, 1)).1

/-- all elements of an array, row-major. -/
def NDArr.flatVals (a : NDArr) : List ℚ := (allIdxs a.shape).map a.val

/-- `abs(c - coord).argmin()`. -/
def nearestIdx (c : ℚ) (coord : NDArr) : Nat :=
  argminList (coord.flatVals.map (fun v => |c - v|))

/-- the axis positions carrying the advanced (array) indices. -/
def advPositions (dims : List String) : List Nat :=
  (List.range dims.length).filter
    (fun i => dims.getD i "" == "latitude" || dims.getD i "" == "longitude")

def contiguousRun (l : List Nat) : Bool :=
  match l with
  | [] => true
  | x :: _ => l == List.range' x l.length

/-- rebuild a source index from the gathered point index and the remaining
coordinates, walking the dimension tuple. -/
def buildGatherIdx (dims : List String) (lat lon : Nat) (rest : List Nat) : List Nat :=
  match dims with
  | [] => []
  | d :: ds =>
    if d == "latitude" then lat :: buildGatherIdx ds lat lon rest
    else if d == "longitude" then lon :: buildGatherIdx ds lat lon rest
    else rest.headD 0 :: buildGatherIdx ds lat lon rest.tail

/-- `v[newslice]` where `newslice` holds the broadcast index arrays at the
latitude/longitude axes and full slices elsewhere: numpy advanced indexing;
the index arrays contribute one axis of length `P`, placed at the first
advanced position when the advanced positions are contiguous and at the
front otherwise. -/
def gatherLatLon (a : NDArr) (dims : List String) (latidxs lonidxs : List Nat) : NDArr :=
  let aps := advPositions dims
  if aps.isEmpty then a
  else
    let p := latidxs.length
    let ins := if contiguousRun aps then aps.headD 0 else 0
    let restShape := ((dims.zip a.shape).filter
      (fun dv => !(dv.1 == "latitude" || dv.1 == "longitude"))).map (·.2)
    ⟨restShape.insertIdx ins p,
     fun idx =>
       a.val (buildGatherIdx dims (latidxs.getD (idx.getD ins 0) 0)
         (lonidxs.getD (idx.getD ins 0) 0) (idx.eraseIdx ins))⟩

/-- the body of `extract`'s per-variable loop (the Python code iterates the
variable dictionary while replacing entries key by key; the net effect on the
insertion-ordered mapping is modelled by folding over a snapshot of the
items). -/
def extractVarStep (latidxs lonidxs : List Nat) (f : PFile) (kv : String × PVar) : PFile :=
  let coords : List String :=
    match getA kv.2.attrs "coordinates" with
    | some (.vstr s) => pySplitWS s
    | _ => kv.2.dimensions
  let f := f.createDimension "points" latidxs.length
  if coords.contains "longitude" || coords.contains "latitude" then
    let newdims := (kv.2.dimensions.filter
      (fun d => !(d == "longitude" || d == "latitude"))) ++ ["points"]
    let nvArr := gatherLatLon kv.2.arr kv.2.dimensions latidxs lonidxs
    let f1 := { f with vars := eraseKeyA f.vars kv.1 }
    { f1 with vars :=
        (setA f1.vars kv.1 (PVar.mk nvArr newdims kv.2.ncattrs kv.2.attrs)) }
  else f

/-- `extract(f, lonlat)` with the point list pre-split into `(lon, lat)`
pairs (the Python code parses them from `"lon,lat[/lon,lat...]"` strings).
The function mutates `f` in place and returns it. -/
def extract (f : PFile) (lonlat : List (List (ℚ × ℚ))) : Option PFile :=
  match getA f.vars "longitude", getA f.vars "latitude" with
  | some longitude, some latitude =>
    let pts := lonlat.flatten
    let latidxs := pts.map (fun ll => nearestIdx ll.2 latitude.arr)
    let lonidxs := pts.map (fun ll => nearestIdx ll.1 longitude.arr)
    some (f.vars.foldl (extractVarStep latidxs lonidxs) f)
  | _, _ => none

/-! ### `getvarpnc` -/

/-- the per-requested-variable body of `getvarpnc`: register the variable's
dimensions (with the source's unlimited flags and the variable's own shape
entries as lengths), grow the coordinate-key set with those dimension names
and any `bounds` attribute of a same-named source variable, register
dimensions for coordinate keys naming source dimensions, and clone the
variable into the output. -/
def gvpVarStep (f : PFile) (st : PFile × List String) (varkey : String) :
    Option (PFile × List String) :=
  match getA f.vars varkey with
  | none => none
  | some var =>
    let dimsStep : Option (PFile × List String) :=
      (var.dimensions.zip var.arr.shape).foldlM (fun (st : PFile × List String) dv =>
        if (getA st.1.dimensions dv.1).isSome then some st
        else
          match getA f.dimensions dv.1 with
          | none => none
          | some fd =>
            let outf := st.1.createDimension dv.1 dv.2
            let outf := if fd.unlimited then outf.setDimUnlimited dv.1 true else outf
            let ck := addKeyOnce st.2 dv.1
            let ck :=
              match getA f.vars dv.1 with
              | some tempv =>
                match getA tempv.attrs "bounds" with
                | some (.vstr b) => addKeyOnce ck (pyStrip b)
                | _ => ck
              | none => ck
            some (outf, ck)) st
    match dimsStep with
    | none => none
    | some st1 =>
      let outf := st1.2.foldl (fun (o : PFile) coordk =>
        match getA f.dimensions coordk with
        | some fd =>
          if (getA o.dimensions coordk).isSome then o
          else
            let o := o.createDimension coordk fd.len
            if fd.unlimited then o.setDimUnlimited coordk true else o
        | none => o) st1.1
      some ({ outf with vars := setA outf.vars varkey var }, st1.2)

/-- `getvarpnc(f, varkeys, coordkeys)`: returns the fresh output Dataset and
the list of warnings issued (the Python `warn('Skipping ...')`).  The source
`f` is only read. -/
def getvarpnc (f : PFile) (varkeysO : Option (List String)) (coordkeys0 : List String) :
    Option (PFile × List String) :=
  let coordkeys := dedupFirst coordkeys0
  let parsed : List String × List String :=
    match varkeysO with
    | none => ((keysA f.vars).filter (fun k => !coordkeys.contains k), [])
    | some vks =>
      let newvarkeys := sortStr (dedupFirst (vks.filter (fun k => (keysA f.vars).contains k)))
      let oldvarkeys := sortStr vks
      if newvarkeys ≠ oldvarkeys then
        (newvarkeys, ["Skipping " ++ joinSep ", "
          ((dedupFirst oldvarkeys).filter (fun k => !newvarkeys.contains k))])
      else (newvarkeys, [])
  let outf := pncFileNew.createDimension "nv" 2
  let outf := f.fncattrs.foldl (fun (o : PFile) k =>
    o.putAttr k ((getA f.fattrs k).getD (.vstr ""))) outf
  match parsed.1.foldlM (gvpVarStep f) (outf, coordkeys) with
  | none => none
  | some st =>
    let outf := st.2.foldl (fun (o : PFile) coordkey =>
      match getA f.vars coordkey with
      | some coordvar => { o with vars := setA o.vars coordkey coordvar }
      | none => o) st.1
    some (outf, parsed.2)

/-! ### the lazy variable registry -/

/-- `PseudoNetCDFVariables`: the underlying dictionary storage, the factory,
and the declared key list. -/
structure PNCVars (V : Type) where
  store : List (String × V)
  func : String → V
  declaredKeys : List String

/-- `self.keys()` membership: `tuple(set(dict.keys(self) + self.__keys))`. -/
def PNCVars.hasKeyP {V : Type} (r : PNCVars V) (k : String) : Bool :=
  (keysA r.store).contains k || r.declaredKeys.contains k

/-- `variables[k]`: the `dict.__getitem__` of the `defaultdict` subclass —
a stored value is returned directly, otherwise `__missing__` runs: a declared
key calls the factory (without storing the result), an undeclared key raises
`KeyError`.  Returns the result (`none` = `KeyError`), the store afterwards,
and the factory invocations made. -/
def PNCVars.getitem {V : Type} (r : PNCVars V) (k : String) :
    Option V × List (String × V) × List String :=
  match getA r.store k with
  | some v => (some v, r.store, [])
  | none =>
    if r.hasKeyP k then (some (r.func k), r.store, [k])
    else (none, r.store, [])

/-! ### wellformedness of a structured Dataset -/

/-- the shape of a variable matches its dimension tuple and the Dataset's
dimension lengths. -/
def PFile.consistentVar (f : PFile) (v : PVar) : Prop :=
  v.arr.shape.length = v.dimensions.length ∧
  ∀ i < v.dimensions.length,
    (getA f.dimensions (v.dimensions.getD i "")).map PDim.len = some (v.arr.shape.getD i 0)

/-- a wellformed Dataset: duplicate-free key lists and consistent variables. -/
def PFile.WfP (f : PFile) : Prop :=
  (keysA f.dimensions).Nodup ∧ (keysA f.vars).Nodup ∧
  ∀ p ∈ f.vars, f.consistentVar p.2

instance (f : PFile) (v : PVar) : Decidable (f.consistentVar v) := by
  unfold PFile.consistentVar
  infer_instance

instance (f : PFile) : Decidable f.WfP := by
  unfold PFile.WfP
  infer_instance

/-- a wellformed variable attribute dictionary, as produced by the
`PseudoNetCDFVariable` constructor and by `__array_finalize__`: `_ncattrs` is
a duplicate-free tuple of present, non-underscore attribute names other than
`dimensions`, and a `dimensions` tuple is present. -/
def WfVarDict (d : PyDict) : Prop :=
  getA d "_ncattrs" = some (.vstrs (ncattrsD d)) ∧
  (ncattrsD d).Nodup ∧
  (∀ k ∈ ncattrsD d, hasattrD d k = true ∧ firstCharIs k '_' = false ∧ k ≠ "dimensions") ∧
  getA d "dimensions" = some (.vstrs (dimsD d))

instance (d : PyDict) : Decidable (WfVarDict d) := by
  unfold WfVarDict
  infer_instance

/-! ### concrete example inputs used by witnesses and counterexamples -/

/-- a parent variable: shape `[2]`, dimension tuple `('TIME',)`, one user
attribute `units`. -/
def exParentVar : DynVar :=
  ⟨[2], [("_ncattrs", .vstrs ["units"]), ("units", .vstr "ppbv"),
         ("dimensions", .vstrs ["TIME"])]⟩

/-- a rank-two parent variable with two user attributes. -/
def exParentVar2 : DynVar :=
  ⟨[2, 3], [("_ncattrs", .vstrs ["units", "long_name"]), ("units", .vstr "ppbv"),
            ("long_name", .vstr "O3"), ("dimensions", .vstrs ["TIME", "LAY"])]⟩

/-- a lazy variable registry over natural numbers: one stored entry, two
declared keys, a factory returning the key length. -/
def exRegistry : PNCVars Nat := ⟨[("S", 7)], (fun s => strLen s), ["NO", "O3"]⟩

/-- a 1-dimensional array with the listed rational entries. -/
def arr1 (vals : List ℚ) : NDArr :=
  ⟨[vals.length], fun idx => vals.getD (idx.getD 0 0) 0⟩

/-- a 2-dimensional array with the listed rows of rational entries. -/
def arr2 (rows : List (List ℚ)) : NDArr :=
  ⟨[rows.length, (rows.headD []).length],
   fun idx => (rows.getD (idx.getD 0 0) []).getD (idx.getD 1 0) 0⟩

/-- a Dataset with dimensions `lay0` (a fuzzy sibling of `lay`) and `lay`,
and one variable over both: values `[[0, 0], [2, 2]]`. -/
def exSiblingFile : PFile :=
  ⟨[("lay0", ⟨2, false⟩), ("lay", ⟨2, true⟩)],
   [("v", ⟨arr2 [[0, 0], [2, 2]], ["lay0", "lay"], ["units"], [("units", .vstr "ppbv")]⟩)],
   [], []⟩

/-- a Dataset with a single dimension `x` of length 2 and a variable on it. -/
def exSliceFile : PFile :=
  ⟨[("x", ⟨2, true⟩)],
   [("u", ⟨arr1 [4, 9], ["x"], ["units"], [("units", .vstr "m")]⟩)],
   ["title"], [("title", .vstr "t")]⟩

/-- a Dataset with one dimension `lay` and one variable over it. -/
def exReduceFile : PFile :=
  ⟨[("lay", ⟨2, true⟩)],
   [("w", ⟨arr1 [0, 2], ["lay"], ["units"], [("units", .vstr "ppbv")]⟩)],
   [], []⟩

/-- a Dataset whose dimension `x` is referenced by no variable. -/
def exEmptyVarFile : PFile := ⟨[("x", ⟨5, false⟩)], [], [], []⟩

/-- a Dataset where the coordinate variable `x` (named after dimension `x`)
itself lives on another dimension `y` and names a `bounds` variable. -/
def exProjFile : PFile :=
  ⟨[("x", ⟨2, false⟩), ("y", ⟨3, false⟩)],
   [("v", ⟨arr1 [5, 6], ["x"], [], []⟩),
    ("x", ⟨arr1 [0, 1, 2], ["y"], ["bounds"], [("bounds", .vstr "x_bounds")]⟩),
    ("x_bounds", ⟨arr1 [0, 1, 2], ["y"], [], []⟩)],
   ["fish"], [("fish", .vint 2)]⟩


/-! ## Theorems -/

/-! ### association-list lemmas -/

theorem getA_cons {α : Type} (p : String × α) (l : List (String × α)) (k : String) :
    getA (p :: l) k = if p.1 = k then some p.2 else getA l k := by
  simp [getA]

theorem getA_setA_self {α : Type} (l : List (String × α)) (k : String) (v : α) :
    getA (setA l k v) k = some v := by
  induction l with
  | nil => simp [setA, getA_cons]
  | cons p l ih =>
    by_cases h : p.1 = k
    · simp [setA, h, getA_cons]
    · simp only [setA, beq_iff_eq, if_neg h]
      rw [getA_cons, if_neg h]
      exact ih

theorem getA_setA_ne {α : Type} (l : List (String × α)) (k k' : String) (v : α)
    (h : k' ≠ k) : getA (setA l k v) k' = getA l k' := by
  induction l with
  | nil =>
    show getA [(k, v)] k' = getA [] k'
    rw [getA_cons, if_neg (Ne.symm h)]
  | cons p l ih =>
    by_cases hpk : p.1 = k
    · simp only [setA, beq_iff_eq, if_pos hpk]
      rw [getA_cons, getA_cons, if_neg (Ne.symm h), if_neg (hpk ▸ Ne.symm h)]
    · simp only [setA, beq_iff_eq, if_neg hpk]
      rw [getA_cons, getA_cons]
      by_cases hpk' : p.1 = k'
      · simp [hpk']
      · simp only [if_neg hpk']
        exact ih

theorem keysA_setA_of_mem {α : Type} (l : List (String × α)) (k : String) (v : α)
    (h : k ∈ keysA l) : keysA (setA l k v) = keysA l := by
  induction l with
  | nil => simp [keysA] at h
  | cons p l ih =>
    by_cases hpk : p.1 = k
    · simp [setA, hpk, keysA]
    · simp only [setA, beq_iff_eq, if_neg hpk]
      have h' : k ∈ keysA l := by
        simp only [keysA, List.map_cons, List.mem_cons] at h
        exact h.resolve_left (fun hh => hpk hh.symm)
      show p.1 :: keysA (setA l k v) = p.1 :: keysA l
      rw [ih h']

theorem getA_none_of_not_mem {α : Type} (l : List (String × α)) (k : String)
    (h : k ∉ keysA l) : getA l k = none := by
  induction l with
  | nil => rfl
  | cons p l ih =>
    simp only [keysA, List.map_cons, List.mem_cons, not_or] at h
    rw [getA_cons, if_neg (fun hh => h.1 hh.symm)]
    exact ih h.2

theorem mem_keysA_of_getA {α : Type} (l : List (String × α)) (k : String)
    (h : (getA l k).isSome) : k ∈ keysA l := by
  by_contra hc
  rw [getA_none_of_not_mem l k hc] at h
  simp at h

theorem setA_eq_self {α : Type} (l : List (String × α)) (k : String) (v : α)
    (h : getA l k = some v) : setA l k v = l := by
  induction l with
  | nil => simp [getA] at h
  | cons p l ih =>
    rw [getA_cons] at h
    by_cases hpk : p.1 = k
    · rw [if_pos hpk] at h
      simp only [setA, beq_iff_eq, if_pos hpk]
      cases p with
      | mk a b => cases h; cases hpk; rfl
    · rw [if_neg hpk] at h
      simp only [setA, beq_iff_eq, if_neg hpk]
      rw [ih h]

theorem keysA_setA_append {α : Type} (l : List (String × α)) (k : String) (v : α)
    (h : k ∉ keysA l) : keysA (setA l k v) = keysA l ++ [k] := by
  induction l with
  | nil => rfl
  | cons p l ih =>
    simp only [keysA, List.map_cons, List.mem_cons, not_or] at h
    have hpk : p.1 ≠ k := fun hh => h.1 hh.symm
    simp only [setA, beq_iff_eq, if_neg hpk]
    show p.1 :: keysA (setA l k v) = (p.1 :: keysA l) ++ [k]
    rw [List.cons_append, ih h.2]

/-! ### C10: `get_dimension_length` always raises an attribute error -/

/-- C10: for every file object with no attribute named `dimsensions` (in
particular every Dataset constructed through `PseudoNetCDFFile`, which
defines `dimensions` but never `dimsensions`) and every key,
`get_dimension_length` raises an attribute-lookup error before any other
branch executes, because its first expression reads `pfile.dimsensions`. -/
theorem get_dimension_length_always_attribute_error (pfile : GFile) (key : String)
    (h : pfile.dimsensionsAttr = none) :
    get_dimension_length pfile key = .error .attributeError := by
  unfold get_dimension_length
  rw [h]

/-- witness for C10 at a concrete file object and key. -/
theorem get_dimension_length_always_attribute_error_witness :
    (GFile.mk none [("O3", ⟨["TIME"], [24]⟩)]).dimsensionsAttr = none ∧
    get_dimension_length (GFile.mk none [("O3", ⟨["TIME"], [24]⟩)]) "TIME"
      = .error .attributeError :=
  ⟨rfl, get_dimension_length_always_attribute_error (GFile.mk none [("O3", ⟨["TIME"], [24]⟩)])
    "TIME" rfl⟩

/-! ### C7: the lazy variable registry -/

/-- C7: for a registry with factory `func` and declared key set: a key
neither declared nor stored raises a missing-key error; a declared,
not-stored key returns `func(key)` while leaving the store untouched and
invoking the factory (once per lookup — since the store is unchanged and the
factory is invoked on every such call, repeated lookups call it again; the
registry itself never caches). -/
theorem registry_missing_and_factory (V : Type) (r : PNCVars V) (k : String)
    (hmiss : getA r.store k = none) :
    (k ∉ r.declaredKeys → k ∉ keysA r.store → r.getitem k = (none, r.store, [])) ∧
    (k ∈ r.declaredKeys → r.getitem k = (some (r.func k), r.store, [k])) := by
  constructor
  · intro hdecl hstore
    unfold PNCVars.getitem PNCVars.hasKeyP
    rw [hmiss]
    have h1 : (keysA r.store).contains k = false := by
      simpa using hstore
    have h2 : r.declaredKeys.contains k = false := by
      simpa using hdecl
    rw [h1, h2]
    rfl
  · intro hdecl
    unfold PNCVars.getitem PNCVars.hasKeyP
    rw [hmiss]
    have h2 : r.declaredKeys.contains k = true := List.elem_eq_true_of_mem hdecl
    rw [h2]
    simp

/-- witness for C7: the example registry, the declared key `O3` and the
undeclared key `NO2`. -/
theorem registry_missing_and_factory_witness :
    (getA exRegistry.store "O3" = none ∧
      exRegistry.getitem "O3" = (some (exRegistry.func "O3"), exRegistry.store, ["O3"])) ∧
    (getA exRegistry.store "NO2" = none ∧
      exRegistry.getitem "NO2" = (none, exRegistry.store, [])) :=
  ⟨⟨by decide, (registry_missing_and_factory Nat exRegistry "O3" (by decide)).2 (by decide)⟩,
   ⟨by decide, (registry_missing_and_factory Nat exRegistry "NO2" (by decide)).1 (by decide)
      (by decide)⟩⟩

/-! ### C2: the Dataset attribute tuple records every qualifying assignment -/

/-- C2 fails as stated: reassigning the same qualifying name records it
twice, because `PseudoNetCDFFile.__setattr__` has no `hasattr` guard.
Assigning `fish` twice on a fresh Dataset leaves a duplicated entry. -/
theorem file_ncattrs_counterexample :
    ncattrsD (applyAssigns pncFileNewD [("fish", .vint 2), ("fish", .vint 3)])
      = ["fish", "fish"] ∧
    ¬ (ncattrsD (applyAssigns pncFileNewD [("fish", .vint 2), ("fish", .vint 3)])).Nodup := by
  constructor
  · decide
  · decide

theorem ncattrsD_fileSetattrD (d : PyDict) (k : String) (v : PyV) (h : k ≠ "_ncattrs") :
    ncattrsD (fileSetattrD d k v)
      = ncattrsD d ++ (if recordedName k then [k] else []) := by
  unfold fileSetattrD
  have hne : ("_ncattrs" : String) ≠ k := Ne.symm h
  by_cases hr : recordedName k
  · simp only [hr, if_true]
    unfold ncattrsD
    rw [getA_setA_ne _ _ _ _ hne, getA_setA_self]
  · simp only [hr, Bool.false_eq_true, if_false]
    unfold ncattrsD
    rw [getA_setA_ne _ _ _ _ hne]
    simp

/-- C2 amended: on any Dataset state, a sequence of attribute assignments
(none targeting the internal `_ncattrs` slot itself) extends the recorded
file-attribute tuple by exactly the names of the qualifying assignments, in
assignment order — names starting with `_` and the reserved `dimensions`,
`variables`, `groups` are never recorded, and a name reassigned `n` times
appears `n` times (no deduplication). -/
theorem file_ncattrs_records_assignments (d : PyDict) (asgs : List (String × PyV))
    (h : ∀ p ∈ asgs, p.1 ≠ "_ncattrs") :
    ncattrsD (applyAssigns d asgs)
      = ncattrsD d ++ (asgs.map (fun p => p.1)).filter recordedName := by
  induction asgs generalizing d with
  | nil => simp [applyAssigns]
  | cons a as ih =>
    have hstep : applyAssigns d (a :: as) = applyAssigns (fileSetattrD d a.1 a.2) as := rfl
    rw [hstep, ih (fileSetattrD d a.1 a.2) (fun p hp => h p (List.mem_cons_of_mem a hp)),
      ncattrsD_fileSetattrD d a.1 a.2 (h a (List.mem_cons_self a as))]
    by_cases hr : recordedName a.1
    · simp [hr, List.filter_cons]
    · simp [hr, List.filter_cons]

/-- witness for C2 at a concrete assignment sequence (the test file's
`fish`, `FROG-DOG` assignments plus an internal and a reserved name). -/
theorem file_ncattrs_records_assignments_witness :
    (∀ p ∈ ([("fish", PyV.vint 2), ("FROG-DOG", PyV.vstr "HAPPY"), ("_private", PyV.vint 0),
        ("dimensions", PyV.vmap), ("fish", PyV.vint 3)] : List (String × PyV)),
      p.1 ≠ "_ncattrs") ∧
    ncattrsD (applyAssigns pncFileNewD [("fish", PyV.vint 2), ("FROG-DOG", PyV.vstr "HAPPY"),
        ("_private", PyV.vint 0), ("dimensions", PyV.vmap), ("fish", PyV.vint 3)])
      = ncattrsD pncFileNewD
        ++ (([("fish", PyV.vint 2), ("FROG-DOG", PyV.vstr "HAPPY"), ("_private", PyV.vint 0),
          ("dimensions", PyV.vmap), ("fish", PyV.vint 3)] : List (String × PyV)).map
            (fun p => p.1)).filter recordedName :=
  ⟨by decide, file_ncattrs_records_assignments pncFileNewD _ (by decide)⟩
/-! ### C1: attribute and dimension propagation through derived arrays -/

theorem ne_ncattrs_of_not_underscore (k : String) (h : firstCharIs k '_' = false) :
    k ≠ "_ncattrs" := by
  intro e
  subst e
  exact absurd h (by decide)

theorem finalizeFold (obj : PyDict) (ks : List String) (s : PyDict) (done : List String)
    (hnc : getA s "_ncattrs" = some (.vstrs done))
    (habsent : ∀ k ∈ ks, getA s k = none)
    (hund : ∀ k ∈ ks, firstCharIs k '_' = false)
    (hnd : ks.Nodup) :
    getA (ks.foldl (fun t k => varSetattr t k ((getA obj k).getD (.vint 0))) s) "_ncattrs"
      = some (.vstrs (done ++ ks)) ∧
    (∀ k', k' ∉ ks → k' ≠ "_ncattrs" →
      getA (ks.foldl (fun t k => varSetattr t k ((getA obj k).getD (.vint 0))) s) k'
        = getA s k') ∧
    (∀ k ∈ ks, getA (ks.foldl (fun t k => varSetattr t k ((getA obj k).getD (.vint 0))) s) k
      = some ((getA obj k).getD (.vint 0))) := by
  induction ks generalizing s done with
  | nil => exact ⟨by simpa using hnc, fun k' _ _ => rfl, fun k hk => absurd hk (by simp)⟩
  | cons k ks ih =>
    have hkabs : getA s k = none := habsent k (List.mem_cons_self k ks)
    have hkund : firstCharIs k '_' = false := hund k (List.mem_cons_self k ks)
    have hkne : k ≠ "_ncattrs" := ne_ncattrs_of_not_underscore k hkund
    have hknotin : k ∉ ks := (List.nodup_cons.mp hnd).1
    have hdone : ncattrsD s = done := by unfold ncattrsD; rw [hnc]
    have hstep : varSetattr s k ((getA obj k).getD (.vint 0))
        = setA (setA s "_ncattrs" (.vstrs (done ++ [k]))) k ((getA obj k).getD (.vint 0)) := by
      unfold varSetattr hasattrD
      rw [hkabs, hdone]
      simp [hkund]
    have hfold : (k :: ks).foldl (fun t k => varSetattr t k ((getA obj k).getD (.vint 0))) s
        = ks.foldl (fun t k => varSetattr t k ((getA obj k).getD (.vint 0)))
            (setA (setA s "_ncattrs" (.vstrs (done ++ [k]))) k ((getA obj k).getD (.vint 0))) := by
      rw [List.foldl_cons, hstep]
    set s1 := setA (setA s "_ncattrs" (.vstrs (done ++ [k]))) k ((getA obj k).getD (.vint 0))
      with hs1
    have hs1nc : getA s1 "_ncattrs" = some (.vstrs (done ++ [k])) := by
      rw [hs1, getA_setA_ne _ _ _ _ (Ne.symm hkne), getA_setA_self]
    have hs1k : getA s1 k = some ((getA obj k).getD (.vint 0)) := by
      rw [hs1, getA_setA_self]
    have hs1other : ∀ k', k' ≠ k → k' ≠ "_ncattrs" → getA s1 k' = getA s k' := by
      intro k' h1 h2
      rw [hs1, getA_setA_ne _ _ _ _ h1, getA_setA_ne _ _ _ _ h2]
    have ihap := ih s1 (done ++ [k]) hs1nc
      (fun k2 hk2 => by
        rw [hs1other k2 (fun e => hknotin (e ▸ hk2))
          (ne_ncattrs_of_not_underscore k2 (hund k2 (List.mem_cons_of_mem k hk2)))]
        exact habsent k2 (List.mem_cons_of_mem k hk2))
      (fun k2 hk2 => hund k2 (List.mem_cons_of_mem k hk2))
      (List.nodup_cons.mp hnd).2
    refine ⟨?_, ?_, ?_⟩
    · rw [hfold, ihap.1, List.append_assoc]
      rfl
    · intro k' hk' hknc
      rw [hfold, ihap.2.1 k' (fun hh => hk' (List.mem_cons_of_mem k hh)) hknc,
        hs1other k' (fun e => hk' (e ▸ List.mem_cons_self k ks)) hknc]
    · intro k2 hk2
      rcases List.mem_cons.mp hk2 with he | hm
      · subst he
        rw [hfold, ihap.2.1 k2 hknotin hkne, hs1k]
      · rw [hfold]
        exact ihap.2.2 k2 hm

/-- C1 fails as stated for rank-reducing scalar-returning operations: a
derived array always receives the parent's full dimension tuple —
`__array_finalize__` copies `obj.dimensions` unchanged (the `[:-1]` trims
`_ncattrs`, not the tuple).  A rank-0 aggregation of the shape-`[2]` parent
carries `('TIME',)`, not the tuple minus its last entry. -/
theorem derived_dims_counterexample :
    (derive exParentVar []).shape = [] ∧ exParentVar.shape = [2] ∧
    dimsD (derive exParentVar []).dict = ["TIME"] ∧
    dimsD (derive exParentVar []).dict ≠ (dimsD exParentVar.dict).dropLast := by
  exact ⟨rfl, rfl, by decide, by decide⟩

/-- C1 amended: every derived array (rank-preserving or rank-reducing: the
new shape is arbitrary) carries exactly the parent's user-attribute tuple,
the parent's attribute values, and the parent's full dimension tuple; the
derived dictionary is again wellformed, so the propagation holds transitively
through chains of derived views. -/
theorem derived_attrs_and_dims (p : DynVar) (newShape : List Nat) (h : WfVarDict p.dict) :
    ncattrsD (derive p newShape).dict = ncattrsD p.dict ∧
    (∀ k ∈ ncattrsD p.dict, getA (derive p newShape).dict k = getA p.dict k) ∧
    getA (derive p newShape).dict "dimensions" = getA p.dict "dimensions" ∧
    (derive p newShape).shape = newShape ∧
    WfVarDict (derive p newShape).dict := by
  obtain ⟨h1, h2, h3, h4⟩ := h
  have hobjnc : hasattrD p.dict "_ncattrs" = true := by unfold hasattrD; rw [h1]; rfl
  have hobjdim : hasattrD p.dict "dimensions" = true := by unfold hasattrD; rw [h4]; rfl
  have hne_dims : ∀ k ∈ ncattrsD p.dict, k ≠ "dimensions" := fun k hk => (h3 k hk).2.2
  have hund : ∀ k ∈ ncattrsD p.dict, firstCharIs k '_' = false := fun k hk => (h3 k hk).2.1
  have hfoldA := finalizeFold p.dict (ncattrsD p.dict) [("_ncattrs", PyV.vstrs [])] []
    rfl
    (fun k hk => by
      rw [getA_cons, if_neg (Ne.symm (ne_ncattrs_of_not_underscore k (hund k hk)))]
      rfl)
    hund h2
  set S := (ncattrsD p.dict).foldl
    (fun t k => varSetattr t k ((getA p.dict k).getD (.vint 0))) [("_ncattrs", PyV.vstrs [])]
    with hS
  have hSdims : getA S "dimensions" = none := by
    rw [hfoldA.2.1 "dimensions" (fun hh => (hne_dims "dimensions" hh) rfl) (by decide)]
    rfl
  have hSnc : getA S "_ncattrs" = some (.vstrs (ncattrsD p.dict)) := by
    have := hfoldA.1
    simpa using this
  have hSdimf : hasattrD S "dimensions" = false := by
    unfold hasattrD
    rw [hSdims]
    rfl
  have hfin : arrayFinalize p.dict
      = varSetattr (varSetattr S "dimensions" ((getA p.dict "dimensions").getD (.vint 0)))
          "_ncattrs"
          (.vstrs (ncattrsD (varSetattr S "dimensions"
            ((getA p.dict "dimensions").getD (.vint 0)))).dropLast) := by
    show (let s := [("_ncattrs", PyV.vstrs [])];
          let s := if hasattrD p.dict "_ncattrs" = true then
              List.foldl (fun t k => varSetattr t k ((getA p.dict k).getD (PyV.vint 0))) s
                (ncattrsD p.dict)
            else s;
          if (!hasattrD s "dimensions") = true then
            if hasattrD p.dict "dimensions" = true then
              let s2 := varSetattr s "dimensions" ((getA p.dict "dimensions").getD (PyV.vint 0));
              varSetattr s2 "_ncattrs" (PyV.vstrs (ncattrsD s2).dropLast)
            else s
          else s) = _
    simp only [hobjnc, hobjdim, if_true]
    rw [← hS, hSdimf]
    simp only [Bool.not_false, if_true]
  set s2 := varSetattr S "dimensions" ((getA p.dict "dimensions").getD (.vint 0)) with hs2
  have hs2form : s2 = setA (setA S "_ncattrs" (.vstrs (ncattrsD p.dict ++ ["dimensions"])))
      "dimensions" ((getA p.dict "dimensions").getD (.vint 0)) := by
    rw [hs2]
    unfold varSetattr hasattrD
    rw [hSdims]
    have hSd : ncattrsD S = ncattrsD p.dict := by
      unfold ncattrsD
      rw [hSnc, h1]
    rw [hSd]
    have hfc : firstCharIs "dimensions" '_' = false := rfl
    simp [hfc]
  have hs2nc : getA s2 "_ncattrs" = some (.vstrs (ncattrsD p.dict ++ ["dimensions"])) := by
    rw [hs2form, getA_setA_ne _ _ _ _ (by decide), getA_setA_self]
  have hs2ncd : ncattrsD s2 = ncattrsD p.dict ++ ["dimensions"] := by
    unfold ncattrsD
    rw [hs2nc, h1]
  have hfin2 : arrayFinalize p.dict = setA s2 "_ncattrs" (.vstrs (ncattrsD p.dict)) := by
    rw [hfin]
    unfold varSetattr
    rw [show firstCharIs "_ncattrs" '_' = true from rfl]
    simp only [Bool.not_true, Bool.and_false, if_neg, Bool.false_eq_true, if_false]
    rw [hs2ncd, List.dropLast_concat]
  have hgetfin : ∀ k', k' ≠ "_ncattrs" → k' ≠ "dimensions" →
      getA (arrayFinalize p.dict) k' = getA S k' := by
    intro k' hk1 hk2
    rw [hfin2, getA_setA_ne _ _ _ _ hk1, hs2form, getA_setA_ne _ _ _ _ hk2,
      getA_setA_ne _ _ _ _ hk1]
  have hfinnc : getA (arrayFinalize p.dict) "_ncattrs" = some (.vstrs (ncattrsD p.dict)) := by
    rw [hfin2, getA_setA_self]
  have hfinncd : ncattrsD (arrayFinalize p.dict) = ncattrsD p.dict := by
    unfold ncattrsD
    rw [hfinnc, h1]
  have hfindims : getA (arrayFinalize p.dict) "dimensions" = getA p.dict "dimensions" := by
    rw [hfin2, getA_setA_ne _ _ _ _ (by decide), hs2form, getA_setA_self, h4]
    rfl
  have hfinattrs : ∀ k ∈ ncattrsD p.dict,
      getA (arrayFinalize p.dict) k = getA p.dict k := by
    intro k hk
    obtain ⟨w, hw⟩ := Option.isSome_iff_exists.mp ((h3 k hk).1)
    rw [hgetfin k (ne_ncattrs_of_not_underscore k (hund k hk)) (hne_dims k hk),
      hfoldA.2.2 k hk, hw]
    rfl
  refine ⟨hfinncd, hfinattrs, hfindims, rfl, ?_⟩
  show WfVarDict (arrayFinalize p.dict)
  refine ⟨by rw [hfinncd]; exact hfinnc, by rw [hfinncd]; exact h2, ?_, ?_⟩
  · intro k hk
    rw [hfinncd] at hk
    refine ⟨?_, (h3 k hk).2.1, (h3 k hk).2.2⟩
    unfold hasattrD
    rw [hfinattrs k hk]
    exact (h3 k hk).1
  · rw [hfindims, h4]
    unfold dimsD
    rw [hfindims, h4]

/-- witness for C1 amended: the rank-two parent derived to rank one. -/
theorem derived_attrs_and_dims_witness :
    WfVarDict exParentVar2.dict ∧
    ncattrsD (derive exParentVar2 [3]).dict = ncattrsD exParentVar2.dict :=
  ⟨by decide, (derived_attrs_and_dims exParentVar2 [3] (by decide)).1⟩


/-! ### index-list helper lemmas -/

theorem getD_set {α : Type} (l : List α) (i j : Nat) (a d : α) :
    (l.set i a).getD j d = if i = j ∧ i < l.length then a else l.getD j d := by
  induction l generalizing i j with
  | nil => simp
  | cons x xs ih =>
    cases i with
    | zero =>
      cases j with
      | zero => simp
      | succ j => simp [List.getD]
    | succ i =>
      cases j with
      | zero => simp [List.getD]
      | succ j =>
        simp only [List.set, List.getD_cons_succ, List.length_cons, ih i j]
        by_cases h : i = j ∧ i < xs.length
        · rw [if_pos h, if_pos ⟨by omega, by omega⟩]
        · rw [if_neg h, if_neg (by omega)]

theorem list_ext_getD {l1 l2 : List Nat} (hlen : l1.length = l2.length)
    (h : ∀ t, t < l1.length → l1.getD t 0 = l2.getD t 0) : l1 = l2 := by
  induction l1 generalizing l2 with
  | nil => cases l2 with
    | nil => rfl
    | cons y ys => simp at hlen
  | cons x xs ih =>
    cases l2 with
    | nil => simp at hlen
    | cons y ys =>
      have h0 := h 0 (by simp)
      simp only [List.getD_cons_zero] at h0
      rw [h0]
      congr 1
      refine ih (by simpa using hlen) (fun t ht => ?_)
      have := h (t + 1) (by simpa using Nat.succ_lt_succ ht)
      simpa using this

theorem length_swapIdx (l : List Nat) (i j : Nat) : (swapIdx l i j).length = l.length := by
  simp [swapIdx]

theorem getD_swapIdx (l : List Nat) (i j t : Nat) (hi : i < l.length) (hj : j < l.length) :
    (swapIdx l i j).getD t 0
      = if t = j then l.getD i 0 else if t = i then l.getD j 0 else l.getD t 0 := by
  unfold swapIdx
  rw [getD_set, getD_set]
  simp only [List.length_set]
  by_cases htj : t = j
  · rw [if_pos ⟨htj.symm, hj⟩, if_pos htj]
  · rw [if_neg (fun hh => htj hh.1.symm), if_neg htj]
    by_cases hti : t = i
    · rw [if_pos ⟨hti.symm, hi⟩, if_pos hti]
    · rw [if_neg (fun hh => hti hh.1.symm), if_neg hti]

theorem headD_eq_getD (l : List Nat) : l.headD 0 = l.getD 0 0 := by
  cases l <;> rfl

theorem cons_getD_tail (l : List Nat) (h : l ≠ []) : l.getD 0 0 :: l.tail = l := by
  cases l with
  | nil => exact absurd rfl h
  | cons x xs => rfl

/-- membership in `allIdxs` is the componentwise bound. -/
theorem mem_allIdxs {s idx : List Nat} :
    idx ∈ allIdxs s ↔ idx.length = s.length ∧ ∀ t, t < s.length → idx.getD t 0 < s.getD t 0 := by
  induction s generalizing idx with
  | nil =>
    simp only [allIdxs, List.mem_singleton]
    constructor
    · rintro rfl
      exact ⟨rfl, by simp⟩
    · rintro ⟨hlen, _⟩
      exact List.eq_nil_of_length_eq_zero hlen
  | cons n rest ih =>
    simp only [allIdxs, List.mem_flatten, List.mem_map]
    constructor
    · rintro ⟨ll, ⟨i, hi, rfl⟩, hmem⟩
      obtain ⟨tl, htl, rfl⟩ := List.mem_map.mp hmem
      obtain ⟨hlen, hb⟩ := ih.mp htl
      refine ⟨by simpa using hlen, fun t ht => ?_⟩
      cases t with
      | zero => simpa using List.mem_range.mp hi
      | succ t => simpa using hb t (by simpa using ht)
    · rintro ⟨hlen, hb⟩
      cases idx with
      | nil => simp at hlen
      | cons i tl =>
        refine ⟨(allIdxs rest).map (fun t => i :: t), ⟨i, ?_, rfl⟩, ?_⟩
        · exact List.mem_range.mpr (by simpa using hb 0 (by simp))
        · refine List.mem_map.mpr ⟨tl, ih.mpr ⟨by simpa using hlen, fun t ht => ?_⟩, rfl⟩
          simpa using hb (t + 1) (by simpa using Nat.succ_lt_succ ht)

/-! ### slice transformation lemmas -/

theorem setA_setA {α : Type} (l : List (String × α)) (k : String) (v w : α) :
    setA (setA l k v) k w = setA l k w := by
  induction l with
  | nil => simp [setA]
  | cons p l ih =>
    by_cases h : p.1 = k
    · simp [setA, h]
    · simp [setA, h, ih]

theorem contains_iff_mem (l : List String) (k : String) : l.contains k = true ↔ k ∈ l := by
  simp

theorem set_zero_of_ne_nil (l : List Nat) (a : Nat) (h : l ≠ []) : l.set 0 a = a :: l.tail := by
  cases l with
  | nil => exact absurd rfl h
  | cons x xs => rfl

theorem swapIdx_set0_swapIdx (l : List Nat) (ax T : Nat) (hax : ax < l.length) :
    swapIdx ((swapIdx l 0 ax).set 0 T) 0 ax = l.set ax T := by
  have h0 : 0 < l.length := Nat.lt_of_le_of_lt (Nat.zero_le ax) hax
  have hlenM : ((swapIdx l 0 ax).set 0 T).length = l.length := by
    rw [List.length_set, length_swapIdx]
  have hMget : ∀ u : Nat, ((swapIdx l 0 ax).set 0 T).getD u 0
      = if u = 0 then T else if u = ax then l.getD 0 0 else l.getD u 0 := by
    intro u
    rw [getD_set]
    by_cases hu0 : u = 0
    · subst hu0
      rw [if_pos ⟨rfl, by rw [length_swapIdx]; exact h0⟩, if_pos rfl]
    · rw [if_neg (fun hh => hu0 hh.1.symm), if_neg hu0, getD_swapIdx _ _ _ _ h0 hax]
      by_cases huax : u = ax
      · rw [if_pos huax, if_pos huax]
      · rw [if_neg huax, if_neg hu0, if_neg huax]
  refine list_ext_getD ?_ ?_
  · rw [length_swapIdx, hlenM, List.length_set]
  · intro t ht
    rw [length_swapIdx, hlenM] at ht
    rw [getD_swapIdx _ _ _ _ (by rw [hlenM]; exact h0) (by rw [hlenM]; exact hax),
      getD_set l ax t T 0]
    by_cases htax : t = ax
    · rw [if_pos htax, hMget 0, if_pos rfl]
      rw [if_pos ⟨htax.symm, hax⟩]
    · conv_rhs => rw [if_neg (show ¬ (ax = t ∧ ax < l.length) from fun hh => htax hh.1.symm)]
      rw [if_neg htax]
      by_cases ht0 : t = 0
      · subst ht0
        have haxne : ax ≠ 0 := fun hh => htax hh.symm
        rw [if_pos rfl, hMget ax, if_neg haxne, if_pos rfl]
      · rw [if_neg ht0, hMget t, if_neg ht0, if_neg htax]

theorem pySliceIdxs_identity (n : Nat) :
    pySliceIdxs (some 0) (some (n : Int)) (some 1) n
      = (List.range n).map (fun (i : Nat) => ((0 : Int) + 1 * (i : Int))) := by
  unfold pySliceIdxs
  dsimp only [Option.getD]
  rw [if_neg (by norm_num : ¬ ((1 : Int) = 0)), if_pos (by norm_num : (0 : Int) < 1),
    if_neg (lt_irrefl (0 : Int)), if_neg (by omega : ¬ ((n : Int) < 0)),
    min_eq_left (by omega : (0 : Int) ≤ (n : Int)), min_self]
  have hcnt : (if (0 : Int) < (n : Int) then (((n : Int) - 0 - 1) / 1 + 1).toNat else 0) = n := by
    by_cases h : (0 : Int) < (n : Int)
    · rw [if_pos h]
      rw [Int.sub_zero, Int.ediv_one]
      omega
    · rw [if_neg h]
      omega
  rw [hcnt]

theorem getD_pySliceIdxs_identity (n t : Nat) (h : t < n) :
    ((pySliceIdxs (some 0) (some (n : Int)) (some 1) n).getD t 0).toNat = t ∧
    (pySliceIdxs (some 0) (some (n : Int)) (some 1) n).length = n := by
  rw [pySliceIdxs_identity]
  constructor
  · rw [List.getD_eq_getElem?_getD, List.getElem?_map, List.getElem?_range h]
    simp only [Option.map_some', Option.getD_some]
    omega
  · rw [List.length_map, List.length_range]

theorem sliceVout_spec (dmin dmax dstride : Option Int) (dimkey : String) (var : PVar)
    (hax : pyIndex var.dimensions dimkey < var.arr.shape.length) :
    (sliceVout dmin dmax dstride dimkey var).shape
      = var.arr.shape.set (pyIndex var.dimensions dimkey)
          (sliceExtent dmin dmax dstride
            (var.arr.shape.getD (pyIndex var.dimensions dimkey) 0)) ∧
    ∀ idx : List Nat, idx.length = var.arr.shape.length →
      (sliceVout dmin dmax dstride dimkey var).val idx
        = var.arr.val (idx.set (pyIndex var.dimensions dimkey)
            (((pySliceIdxs dmin dmax dstride
                (var.arr.shape.getD (pyIndex var.dimensions dimkey) 0)).getD
              (idx.getD (pyIndex var.dimensions dimkey) 0) 0).toNat)) := by
  set ax := pyIndex var.dimensions dimkey with haxdef
  set a := var.arr with hadef
  have h0 : 0 < a.shape.length := Nat.lt_of_le_of_lt (Nat.zero_le ax) hax
  have hhead : (swapIdx a.shape 0 ax).headD 0 = a.shape.getD ax 0 := by
    rw [headD_eq_getD, getD_swapIdx _ _ _ _ h0 hax]
    by_cases h : (0 : Nat) = ax
    · rw [if_pos h, ← h]
    · rw [if_neg h, if_pos rfl]
  have hne : swapIdx a.shape 0 ax ≠ [] := by
    apply List.ne_nil_of_length_pos
    rw [length_swapIdx]
    exact h0
  constructor
  · show swapIdx ((pySliceIdxs dmin dmax dstride ((swapIdx a.shape 0 ax).headD 0)).length
        :: (swapIdx a.shape 0 ax).tail) 0 ax = _
    rw [hhead,
      ← set_zero_of_ne_nil (swapIdx a.shape 0 ax)
        (pySliceIdxs dmin dmax dstride (a.shape.getD ax 0)).length hne,
      swapIdx_set0_swapIdx _ _ _ hax]
    rfl
  · intro idx hlen
    have h0i : 0 < idx.length := by rw [hlen]; exact h0
    have haxi : ax < idx.length := by rw [hlen]; exact hax
    have hnei : swapIdx idx 0 ax ≠ [] := by
      apply List.ne_nil_of_length_pos
      rw [length_swapIdx]
      exact h0i
    have hheadi : (swapIdx idx 0 ax).headD 0 = idx.getD ax 0 := by
      rw [headD_eq_getD, getD_swapIdx _ _ _ _ h0i haxi]
      by_cases h : (0 : Nat) = ax
      · rw [if_pos h, ← h]
      · rw [if_neg h, if_pos rfl]
    show a.val (swapIdx (((pySliceIdxs dmin dmax dstride
        ((swapIdx a.shape 0 ax).headD 0)).getD ((swapIdx idx 0 ax).headD 0) 0).toNat
        :: (swapIdx idx 0 ax).tail) 0 ax) = _
    rw [hhead, hheadi,
      ← set_zero_of_ne_nil (swapIdx idx 0 ax)
        (((pySliceIdxs dmin dmax dstride (a.shape.getD ax 0)).getD (idx.getD ax 0) 0).toNat)
        hnei,
      swapIdx_set0_swapIdx _ _ _ haxi]

theorem sliceVarStep_eq_none (dimkey : String) (dmin dmax dstride : Option Int) (unl : Bool)
    (f : PFile) (varkey : String) (h : getA f.vars varkey = none) :
    sliceVarStep dimkey dmin dmax dstride unl f varkey = f := by
  unfold sliceVarStep
  rw [h]

theorem sliceVarStep_eq_skip (dimkey : String) (dmin dmax dstride : Option Int) (unl : Bool)
    (f : PFile) (varkey : String) (var : PVar) (h : getA f.vars varkey = some var)
    (h2 : var.dimensions.contains dimkey = false) :
    sliceVarStep dimkey dmin dmax dstride unl f varkey = f := by
  unfold sliceVarStep
  simp only [h]
  rw [if_neg (show ¬ (var.dimensions.contains dimkey = true) by rw [h2]; simp)]

theorem sliceVarStep_eq_update (dimkey : String) (dmin dmax dstride : Option Int) (unl : Bool)
    (f : PFile) (varkey : String) (var : PVar) (h : getA f.vars varkey = some var)
    (h2 : var.dimensions.contains dimkey = true) :
    sliceVarStep dimkey dmin dmax dstride unl f varkey
      = { f with
          dimensions := setA f.dimensions dimkey
            ⟨(sliceVout dmin dmax dstride dimkey var).shape.getD
              (pyIndex var.dimensions dimkey) 0, unl⟩,
          vars := setA f.vars varkey
            { var with arr := sliceVout dmin dmax dstride dimkey var } } := by
  unfold sliceVarStep
  rw [h]
  simp only [h2, if_true]
  unfold PFile.createDimension PFile.setDimUnlimited
  simp only [getA_setA_self, setA_setA]

theorem sliceFoldAux (dimkey : String) (dmin dmax dstride : Option Int) (unl : Bool)
    (f0 : PFile) (ks : List String) (g : PFile)
    (hrem : ∀ k ∈ ks, getA g.vars k = getA f0.vars k)
    (hnd : ks.Nodup) :
    (∀ k, k ∉ ks →
      getA (ks.foldl (sliceVarStep dimkey dmin dmax dstride unl) g).vars k = getA g.vars k) ∧
    (∀ k ∈ ks, getA (ks.foldl (sliceVarStep dimkey dmin dmax dstride unl) g).vars k
      = match getA f0.vars k with
        | none => getA g.vars k
        | some var => some (if var.dimensions.contains dimkey = true
            then { var with arr := sliceVout dmin dmax dstride dimkey var } else var)) ∧
    (ks.foldl (sliceVarStep dimkey dmin dmax dstride unl) g).fncattrs = g.fncattrs ∧
    (ks.foldl (sliceVarStep dimkey dmin dmax dstride unl) g).fattrs = g.fattrs ∧
    keysA (ks.foldl (sliceVarStep dimkey dmin dmax dstride unl) g).vars = keysA g.vars ∧
    ((∀ k var, k ∈ ks → getA f0.vars k = some var →
        var.dimensions.contains dimkey = false) →
      (ks.foldl (sliceVarStep dimkey dmin dmax dstride unl) g).dimensions = g.dimensions) ∧
    (∀ D : PDim,
      (∀ k var, k ∈ ks → getA f0.vars k = some var →
        var.dimensions.contains dimkey = true →
        PDim.mk ((sliceVout dmin dmax dstride dimkey var).shape.getD
          (pyIndex var.dimensions dimkey) 0) unl = D) →
      ((ks.foldl (sliceVarStep dimkey dmin dmax dstride unl) g).dimensions = g.dimensions ∨
        (ks.foldl (sliceVarStep dimkey dmin dmax dstride unl) g).dimensions
          = setA g.dimensions dimkey D) ∧
      ((∃ k var, k ∈ ks ∧ getA f0.vars k = some var ∧
          var.dimensions.contains dimkey = true) →
        (ks.foldl (sliceVarStep dimkey dmin dmax dstride unl) g).dimensions
          = setA g.dimensions dimkey D)) := by
  induction ks generalizing g with
  | nil =>
    refine ⟨fun k _ => rfl, fun k hk => absurd hk (by simp), rfl, rfl, rfl,
      fun _ => rfl, fun D _ => ⟨Or.inl rfl, ?_⟩⟩
    rintro ⟨k, var, hk, _, _⟩
    exact absurd hk (by simp)
  | cons k ks ih =>
    have hknotin : k ∉ ks := (List.nodup_cons.mp hnd).1
    have hndks : ks.Nodup := (List.nodup_cons.mp hnd).2
    have hgk : getA g.vars k = getA f0.vars k := hrem k (List.mem_cons_self k ks)
    rcases hf0k : getA f0.vars k with _ | var
    · have hstep : sliceVarStep dimkey dmin dmax dstride unl g k = g :=
        sliceVarStep_eq_none _ _ _ _ _ _ _ (hgk.trans hf0k)
      rw [List.foldl_cons, hstep]
      obtain ⟨c1, c2, c3, c4, c5, c6, c7⟩ := ih g
        (fun k2 hk2 => hrem k2 (List.mem_cons_of_mem k hk2)) hndks
      refine ⟨fun k2 hk2 => c1 k2 (fun hh => hk2 (List.mem_cons_of_mem k hh)), ?_, c3, c4, c5,
        fun hno => c6 (fun k2 var2 hk2 => hno k2 var2 (List.mem_cons_of_mem k hk2)), ?_⟩
      · intro k2 hk2
        rcases List.mem_cons.mp hk2 with he | hm
        · subst he
          rw [c1 k2 hknotin, hgk]
          simp only [hf0k]
        · exact c2 k2 hm
      · intro D hconst
        obtain ⟨d1, d2⟩ := c7 D (fun k2 var2 hk2 => hconst k2 var2 (List.mem_cons_of_mem k hk2))
        refine ⟨d1, ?_⟩
        rintro ⟨k2, var2, hk2, hv2, hc2⟩
        rcases List.mem_cons.mp hk2 with he | hm
        · subst he
          rw [hf0k] at hv2
          exact absurd hv2 (by simp)
        · exact d2 ⟨k2, var2, hm, hv2, hc2⟩
    · rcases hcont : var.dimensions.contains dimkey with _ | _
      · have hmemf : dimkey ∉ var.dimensions := by
          intro hm
          have hc := (contains_iff_mem _ _).mpr hm
          rw [hcont] at hc
          exact absurd hc (by simp)
        have hstep : sliceVarStep dimkey dmin dmax dstride unl g k = g :=
          sliceVarStep_eq_skip _ _ _ _ _ _ _ var (hgk.trans hf0k) hcont
        rw [List.foldl_cons, hstep]
        obtain ⟨c1, c2, c3, c4, c5, c6, c7⟩ := ih g
          (fun k2 hk2 => hrem k2 (List.mem_cons_of_mem k hk2)) hndks
        refine ⟨fun k2 hk2 => c1 k2 (fun hh => hk2 (List.mem_cons_of_mem k hh)), ?_, c3, c4, c5,
          fun hno => c6 (fun k2 var2 hk2 => hno k2 var2 (List.mem_cons_of_mem k hk2)), ?_⟩
        · intro k2 hk2
          rcases List.mem_cons.mp hk2 with he | hm
          · subst he
            rw [c1 k2 hknotin, hgk]
            simp [hf0k, hmemf]
          · exact c2 k2 hm
        · intro D hconst
          obtain ⟨d1, d2⟩ := c7 D
            (fun k2 var2 hk2 => hconst k2 var2 (List.mem_cons_of_mem k hk2))
          refine ⟨d1, ?_⟩
          rintro ⟨k2, var2, hk2, hv2, hc2⟩
          rcases List.mem_cons.mp hk2 with he | hm
          · subst he
            rw [hf0k] at hv2
            cases hv2
            rw [hcont] at hc2
            exact absurd hc2 (by simp)
          · exact d2 ⟨k2, var2, hm, hv2, hc2⟩
      · have hmemT : dimkey ∈ var.dimensions := (contains_iff_mem _ _).mp hcont
        have hstep := sliceVarStep_eq_update dimkey dmin dmax dstride unl g k var
          (hgk.trans hf0k) hcont
        rw [List.foldl_cons, hstep]
        set newvar := { var with arr := sliceVout dmin dmax dstride dimkey var } with hnv
        set D0 : PDim := ⟨(sliceVout dmin dmax dstride dimkey var).shape.getD
          (pyIndex var.dimensions dimkey) 0, unl⟩ with hD0
        set g' : PFile := PFile.mk (setA g.dimensions dimkey D0) (setA g.vars k newvar) g.fncattrs g.fattrs with hg'
        have hrem' : ∀ k2 ∈ ks, getA g'.vars k2 = getA f0.vars k2 := by
          intro k2 hk2
          show getA (setA g.vars k newvar) k2 = _
          rw [getA_setA_ne _ _ _ _ (fun e => hknotin (show k ∈ ks by rw [← e]; exact hk2))]
          exact hrem k2 (List.mem_cons_of_mem k hk2)
        obtain ⟨c1, c2, c3, c4, c5, c6, c7⟩ := ih g' hrem' hndks
        have hg'k : getA g'.vars k = some newvar := by
          show getA (setA g.vars k newvar) k = some newvar
          exact getA_setA_self _ _ _
        have hkmem : k ∈ keysA g.vars :=
          mem_keysA_of_getA _ _ (by rw [hgk, hf0k]; rfl)
        refine ⟨?_, ?_, c3, c4, ?_, ?_, ?_⟩
        · intro k2 hk2
          rw [c1 k2 (fun hh => hk2 (List.mem_cons_of_mem k hh))]
          show getA (setA g.vars k newvar) k2 = getA g.vars k2
          exact getA_setA_ne _ _ _ _ (fun e => hk2 (e ▸ List.mem_cons_self k ks))
        · intro k2 hk2
          rcases List.mem_cons.mp hk2 with he | hm
          · subst he
            rw [c1 k2 hknotin, hg'k]
            simp [hf0k, hmemT, hnv]
          · rw [c2 k2 hm]
            rcases hf2 : getA f0.vars k2 with _ | var2
            · simp only [hf2]
              show getA (setA g.vars k newvar) k2 = getA g.vars k2
              exact getA_setA_ne _ _ _ _ (fun e => hknotin (by rw [← e]; exact hm))
            · simp only [hf2]
        · rw [c5]
          show keysA (setA g.vars k newvar) = keysA g.vars
          exact keysA_setA_of_mem _ _ _ hkmem
        · intro hno
          have hfa := hno k var (List.mem_cons_self k ks) hf0k
          rw [hcont] at hfa
          exact absurd hfa (by simp)
        · intro D hconst
          have hD0D : D0 = D := hconst k var (List.mem_cons_self k ks) hf0k hcont
          have hg'dims : g'.dimensions = setA g.dimensions dimkey D := by
            show setA g.dimensions dimkey D0 = setA g.dimensions dimkey D
            rw [hD0D]
          obtain ⟨d1, d2⟩ := c7 D
            (fun k2 var2 hk2 => hconst k2 var2 (List.mem_cons_of_mem k hk2))
          constructor
          · rcases d1 with d | d
            · right
              rw [d, hg'dims]
            · right
              rw [d, hg'dims, setA_setA]
          · intro _
            rcases d1 with d | d
            · rw [d, hg'dims]
            · rw [d, hg'dims, setA_setA]

theorem mem_of_getA {α : Type} (l : List (String × α)) (k : String) (v : α)
    (h : getA l k = some v) : (k, v) ∈ l := by
  induction l with
  | nil => exact absurd h (by simp [getA])
  | cons p l ih =>
    rw [getA_cons] at h
    by_cases hpk : p.1 = k
    · rw [if_pos hpk] at h
      have hv := Option.some.inj h
      subst hv
      cases p
      cases hpk
      exact List.mem_cons_self _ _
    · rw [if_neg hpk] at h
      exact List.mem_cons_of_mem _ (ih h)

theorem pyIndex_spec (l : List String) (k : String) (h : k ∈ l) :
    pyIndex l k < l.length ∧ l.getD (pyIndex l k) "" = k := by
  induction l with
  | nil => simp at h
  | cons x xs ih =>
    by_cases hx : x = k
    · subst hx
      constructor
      · show (if (x == x) = true then 0 else pyIndex xs x + 1) < _
        simp
      · show (x :: xs).getD (if (x == x) = true then 0 else pyIndex xs x + 1) "" = x
        simp
    · have hm : k ∈ xs := by
        rcases List.mem_cons.mp h with he | hm
        · exact absurd he.symm hx
        · exact hm
      obtain ⟨ih1, ih2⟩ := ih hm
      have hbeq : (x == k) = false := by simp [hx]
      constructor
      · show (if (x == k) = true then 0 else pyIndex xs k + 1) < _
        rw [hbeq]
        simpa using Nat.succ_lt_succ ih1
      · show (x :: xs).getD (if (x == k) = true then 0 else pyIndex xs k + 1) "" = k
        rw [hbeq]
        simpa using ih2

theorem set_getD_self (l : List Nat) (i : Nat) :
    l.set i (l.getD i 0) = l := by
  induction l generalizing i with
  | nil => rfl
  | cons x xs ih =>
    cases i with
    | zero => rfl
    | succ i =>
      show x :: xs.set i (xs.getD i 0) = x :: xs
      rw [ih]

theorem sliceExtent_identity (n : Nat) :
    sliceExtent (some 0) (some (n : Int)) (some 1) n = n := by
  unfold sliceExtent
  rw [pySliceIdxs_identity, List.length_map, List.length_range]

theorem slice_dim_no_sibling (f : PFile) (sd : String) (fz : Bool)
    (dimkey : String) (dmin dmax dstride : Option Int) (dim0 : PDim)
    (hparse : parseSliceDef sd = some (dimkey, dmin, dmax, dstride))
    (hdim : getA f.dimensions dimkey = some dim0)
    (hsib : fuzzySiblings f.dimensions dimkey = []) :
    slice_dim f sd fz = some (((keysA f.vars).foldl
        (sliceVarStep dimkey dmin dmax dstride dim0.unlimited) f).putAttr "history"
      (.vstr (((keysA f.vars).foldl (sliceVarStep dimkey dmin dmax dstride dim0.unlimited)
          f).getAttrStr "history" "" ++ sliceHistoryDef sd fz))) := by
  unfold slice_dim
  rw [show sliceFuel f = (((keysA f.dimensions).map strLen).foldl max 0 + 1) + 1 from rfl]
  rw [slice_dimF]
  simp only [hparse, hdim, hsib]
  cases fz
  · simp
  · simp

/-! ### C4: slicing `dim,0,N,1` -/

/-- C4 fails as stated: the Dataset is not unchanged, because `slice_dim`
always appends the operation description to the `history` file attribute and
records `history` into the file attribute tuple.  On the example Dataset the
file attributes change. -/
theorem slice_identity_counterexample :
    (slice_dim exSliceFile "x,0,2,1" true).map PFile.fncattrs
      = some ["title", "history"] ∧
    exSliceFile.fncattrs = ["title"] ∧
    (["title", "history"] : List String) ≠ ["title"] := by
  refine ⟨by decide, rfl, by decide⟩

/-- C4 amended: slicing `dim,0,N,1` on a dimension of length `N` (with no
fuzzy-sibling dimension names, which would be sliced too) leaves every
dimension's length and unlimited flag and every variable's values, dimension
tuple and attributes unchanged, and leaves the file attributes unchanged
except that the operation description is appended to `history` (and
`history` is recorded in the attribute tuple). -/
theorem slice_identity_up_to_history (f : PFile) (sd : String) (fz : Bool)
    (dimkey : String) (N : Nat) (u : Bool)
    (hWf : f.WfP)
    (hparse : parseSliceDef sd = some (dimkey, some 0, some (N : Int), some 1))
    (hdim : getA f.dimensions dimkey = some ⟨N, u⟩)
    (hsib : fuzzySiblings f.dimensions dimkey = []) :
    ∃ f', slice_dim f sd fz = some f' ∧
      f'.dimensions = f.dimensions ∧
      keysA f'.vars = keysA f.vars ∧
      (∀ k var, getA f.vars k = some var → ∃ var', getA f'.vars k = some var' ∧
        var'.dimensions = var.dimensions ∧ var'.ncattrs = var.ncattrs ∧
        var'.attrs = var.attrs ∧ var'.arr.shape = var.arr.shape ∧
        ∀ idx ∈ allIdxs var.arr.shape, var'.arr.val idx = var.arr.val idx) ∧
      f'.fncattrs = f.fncattrs ++ ["history"] ∧
      f'.fattrs = setA f.fattrs "history"
        (.vstr (f.getAttrStr "history" "" ++ sliceHistoryDef sd fz)) := by
  obtain ⟨hndd, hndv, hcons⟩ := hWf
  have hfold := sliceFoldAux dimkey (some 0) (some (N : Int)) (some 1) u f
    (keysA f.vars) f (fun k _ => rfl) hndv
  obtain ⟨c1, c2, c3, c4, c5, c6, c7⟩ := hfold
  set F := (keysA f.vars).foldl (sliceVarStep dimkey (some 0) (some (N : Int)) (some 1) u) f
    with hF
  -- every referencing variable has axis length N, so its slice is the identity
  have hvar : ∀ k var, getA f.vars k = some var → var.dimensions.contains dimkey = true →
      pyIndex var.dimensions dimkey < var.arr.shape.length ∧
      var.arr.shape.getD (pyIndex var.dimensions dimkey) 0 = N := by
    intro k var hv hc
    have hmem : (k, var) ∈ f.vars := mem_of_getA _ _ _ hv
    obtain ⟨hlen, hbound⟩ := hcons (k, var) hmem
    have hmemd : dimkey ∈ var.dimensions := (contains_iff_mem _ _).mp hc
    obtain ⟨hax, hgetk⟩ := pyIndex_spec var.dimensions dimkey hmemd
    refine ⟨by rw [hlen]; exact hax, ?_⟩
    have := hbound (pyIndex var.dimensions dimkey) hax
    rw [hgetk, hdim] at this
    simpa using this.symm
  have hD : ∀ k var, k ∈ keysA f.vars → getA f.vars k = some var →
      var.dimensions.contains dimkey = true →
      PDim.mk ((sliceVout (some 0) (some (N : Int)) (some 1) dimkey var).shape.getD
        (pyIndex var.dimensions dimkey) 0) u = PDim.mk N u := by
    intro k var _ hv hc
    obtain ⟨hax, haxN⟩ := hvar k var hv hc
    have hsh := (sliceVout_spec (some 0) (some (N : Int)) (some 1) dimkey var hax).1
    rw [hsh, haxN, sliceExtent_identity, getD_set, if_pos ⟨rfl, hax⟩]
  have hdims : F.dimensions = f.dimensions := by
    obtain ⟨d1, _⟩ := c7 (PDim.mk N u) (fun k var hk hv hc => hD k var hk hv hc)
    rcases d1 with d | d
    · exact d
    · rw [d]
      exact setA_eq_self _ _ _ hdim
  refine ⟨_, slice_dim_no_sibling f sd fz dimkey (some 0) (some (N : Int)) (some 1) ⟨N, u⟩
      hparse hdim hsib, ?_, ?_, ?_, ?_, ?_⟩
  · show (PFile.putAttr _ _ _).dimensions = f.dimensions
    unfold PFile.putAttr
    simp only [show recordedName "history" = true from rfl, if_true]
    exact hdims
  · show keysA (PFile.putAttr _ _ _).vars = keysA f.vars
    unfold PFile.putAttr
    simp only [show recordedName "history" = true from rfl, if_true]
    exact c5
  · intro k var hv
    have hmemk : k ∈ keysA f.vars := mem_keysA_of_getA _ _ (by rw [hv]; rfl)
    have hFk := c2 k hmemk
    rw [hv] at hFk
    have hputvars : (PFile.putAttr F "history"
        (.vstr (F.getAttrStr "history" "" ++ sliceHistoryDef sd fz))).vars = F.vars := by
      unfold PFile.putAttr
      simp only [show recordedName "history" = true from rfl, if_true]
    rcases hc : var.dimensions.contains dimkey with _ | _
    · have hmemf : dimkey ∉ var.dimensions := by
        intro hm
        have hcc := (contains_iff_mem _ _).mpr hm
        rw [hc] at hcc
        exact absurd hcc (by simp)
      refine ⟨var, ?_, rfl, rfl, rfl, rfl, fun idx _ => rfl⟩
      rw [hputvars, hFk]
      simp [hmemf]
    · have hmemT : dimkey ∈ var.dimensions := (contains_iff_mem _ _).mp hc
      obtain ⟨hax, haxN⟩ := hvar k var hv hc
      refine ⟨{ var with arr := sliceVout (some 0) (some (N : Int)) (some 1) dimkey var },
        ?_, rfl, rfl, rfl, ?_, ?_⟩
      · rw [hputvars, hFk]
        simp [hmemT]
      · have hsh := (sliceVout_spec (some 0) (some (N : Int)) (some 1) dimkey var hax).1
        show (sliceVout (some 0) (some (N : Int)) (some 1) dimkey var).shape = var.arr.shape
        rw [hsh, haxN, sliceExtent_identity, ← haxN, set_getD_self]
      · intro idx hidx
        obtain ⟨hilen, hib⟩ := mem_allIdxs.mp hidx
        have hval := (sliceVout_spec (some 0) (some (N : Int)) (some 1) dimkey var hax).2
          idx hilen
        show (sliceVout (some 0) (some (N : Int)) (some 1) dimkey var).val idx
          = var.arr.val idx
        rw [hval, haxN]
        have hbnd : idx.getD (pyIndex var.dimensions dimkey) 0 < N := by
          have := hib (pyIndex var.dimensions dimkey) hax
          rwa [haxN] at this
        rw [(getD_pySliceIdxs_identity N (idx.getD (pyIndex var.dimensions dimkey) 0)
          hbnd).1, set_getD_self]
  · show (PFile.putAttr _ _ _).fncattrs = f.fncattrs ++ ["history"]
    unfold PFile.putAttr
    simp only [show recordedName "history" = true from rfl, if_true]
    rw [c3]
  · show (PFile.putAttr _ _ _).fattrs = _
    unfold PFile.putAttr
    simp only [show recordedName "history" = true from rfl, if_true]
    rw [c4]
    have hhist : F.getAttrStr "history" "" = f.getAttrStr "history" "" := by
      unfold PFile.getAttrStr
      rw [c4]
    rw [hhist]

/-- witness for C4 amended at the example Dataset with `x,0,2,1`. -/
theorem slice_identity_up_to_history_witness :
    (exSliceFile.WfP ∧
      parseSliceDef "x,0,2,1" = some ("x", some 0, some (2 : Int), some 1) ∧
      getA exSliceFile.dimensions "x" = some ⟨2, true⟩ ∧
      fuzzySiblings exSliceFile.dimensions "x" = []) ∧
    (∃ f', slice_dim exSliceFile "x,0,2,1" true = some f' ∧
      f'.dimensions = exSliceFile.dimensions ∧
      keysA f'.vars = keysA exSliceFile.vars ∧
      (∀ k var, getA exSliceFile.vars k = some var → ∃ var', getA f'.vars k = some var' ∧
        var'.dimensions = var.dimensions ∧ var'.ncattrs = var.ncattrs ∧
        var'.attrs = var.attrs ∧ var'.arr.shape = var.arr.shape ∧
        ∀ idx ∈ allIdxs var.arr.shape, var'.arr.val idx = var.arr.val idx) ∧
      f'.fncattrs = exSliceFile.fncattrs ++ ["history"] ∧
      f'.fattrs = setA exSliceFile.fattrs "history"
        (.vstr (exSliceFile.getAttrStr "history" ""
          ++ sliceHistoryDef "x,0,2,1" true))) :=
  ⟨⟨by decide, by decide, by decide, by decide⟩,
    slice_identity_up_to_history exSliceFile "x,0,2,1" true "x" 2 true
      (by decide) (by decide) (by decide) (by decide)⟩

/-! ### C5: start-only defaulting and the dimension update -/

/-- C5 fails as stated in its "in all cases" part: when no variable
references the dimension, `slice_dim` never touches the Dimension entry (the
update sits inside the per-variable loop).  On a Dataset whose dimension `x`
of length 5 is referenced by no variable, slicing `x,0,2,1` leaves length 5,
not the sliced extent 2. -/
theorem slice_dim_update_counterexample :
    (slice_dim exEmptyVarFile "x,0,2,1" true).map (fun g => getA g.dimensions "x")
      = some (some ⟨5, false⟩) ∧
    sliceExtent (some 0) (some 2) (some 1) 5 = 2 ∧
    ¬ ((5 : Nat) = 2) := by
  refine ⟨by decide, by decide, by decide⟩

/-- C5 amended: a slice spec with only a start index parses with
`stop = start + 1` and an unset stride; and whenever at least one variable
references `dim`, the Dataset's Dimension for `dim` is set to the length of
the sliced extent with its unlimited flag preserved (a dimension referenced
by no variable is left untouched). -/
theorem slice_start_default_and_dim_update :
    (∀ (d : String) (v : Int),
      parseSliceEvaled d [some v] = some (d, some v, some (v + 1), none)) ∧
    (∀ (f : PFile) (sd : String) (fz : Bool) (dimkey : String)
      (dmin dmax dstride : Option Int) (L : Nat) (u : Bool),
      f.WfP →
      parseSliceDef sd = some (dimkey, dmin, dmax, dstride) →
      getA f.dimensions dimkey = some ⟨L, u⟩ →
      fuzzySiblings f.dimensions dimkey = [] →
      (∃ k var, getA f.vars k = some var ∧ var.dimensions.contains dimkey = true) →
      ∃ f', slice_dim f sd fz = some f' ∧
        getA f'.dimensions dimkey = some ⟨sliceExtent dmin dmax dstride L, u⟩) := by
  constructor
  · intro d v
    rfl
  · intro f sd fz dimkey dmin dmax dstride L u hWf hparse hdim hsib href
    obtain ⟨hndd, hndv, hcons⟩ := hWf
    obtain ⟨c1, c2, c3, c4, c5, c6, c7⟩ := sliceFoldAux dimkey dmin dmax dstride u f
      (keysA f.vars) f (fun k _ => rfl) hndv
    have hvar : ∀ k var, getA f.vars k = some var →
        var.dimensions.contains dimkey = true →
        pyIndex var.dimensions dimkey < var.arr.shape.length ∧
        var.arr.shape.getD (pyIndex var.dimensions dimkey) 0 = L := by
      intro k var hv hc
      obtain ⟨hlen, hbound⟩ := hcons (k, var) (mem_of_getA _ _ _ hv)
      have hmemd : dimkey ∈ var.dimensions := (contains_iff_mem _ _).mp hc
      obtain ⟨hax, hgetk⟩ := pyIndex_spec var.dimensions dimkey hmemd
      refine ⟨by rw [hlen]; exact hax, ?_⟩
      have := hbound (pyIndex var.dimensions dimkey) hax
      rw [hgetk, hdim] at this
      simpa using this.symm
    have hD : ∀ k var, k ∈ keysA f.vars → getA f.vars k = some var →
        var.dimensions.contains dimkey = true →
        PDim.mk ((sliceVout dmin dmax dstride dimkey var).shape.getD
          (pyIndex var.dimensions dimkey) 0) u
          = PDim.mk (sliceExtent dmin dmax dstride L) u := by
      intro k var _ hv hc
      obtain ⟨hax, haxL⟩ := hvar k var hv hc
      have hsh := (sliceVout_spec dmin dmax dstride dimkey var hax).1
      rw [hsh, haxL, getD_set, if_pos ⟨rfl, hax⟩]
    obtain ⟨_, d2⟩ := c7 (PDim.mk (sliceExtent dmin dmax dstride L) u) hD
    obtain ⟨k0, var0, hv0, hc0⟩ := href
    have hFdims := d2 ⟨k0, var0, mem_keysA_of_getA _ _ (by rw [hv0]; rfl), hv0, hc0⟩
    refine ⟨_, slice_dim_no_sibling f sd fz dimkey dmin dmax dstride ⟨L, u⟩
        hparse hdim hsib, ?_⟩
    show getA (PFile.putAttr _ _ _).dimensions dimkey = _
    unfold PFile.putAttr
    simp only [show recordedName "history" = true from rfl, if_true]
    rw [hFdims, getA_setA_self]

/-- witness for C5: `x,1` on the example Dataset parses as the single-index
slice and sets the dimension to the sliced extent. -/
theorem slice_start_default_and_dim_update_witness :
    (parseSliceEvaled "x" [some 1] = some ("x", some 1, some 2, none)) ∧
    (∃ f', slice_dim exSliceFile "x,1" true = some f' ∧
      getA f'.dimensions "x" = some ⟨sliceExtent (some 1) (some 2) none 2, true⟩) := by
  refine ⟨slice_start_default_and_dim_update.1 "x" 1, ?_⟩
  refine slice_start_default_and_dim_update.2 exSliceFile "x,1" true "x" (some 1) (some 2)
    none 2 true (by decide) (by decide) (by decide) (by decide) ?_
  exact ⟨"u", ⟨arr1 [4, 9], ["x"], ["units"], [("units", .vstr "m")]⟩, rfl, by decide⟩


/-! ### `reduce_dim`: index lemmas for `newaxis` and `mean` -/

theorem eraseIdx_insertIdx_succ (s : List Nat) (ax x : Nat) (h : ax < s.length) :
    (s.insertIdx (ax + 1) x).eraseIdx ax = s.set ax x := by
  induction s generalizing ax with
  | nil => simp at h
  | cons a as ih =>
    cases ax with
    | zero => rfl
    | succ ax =>
      show a :: ((as.insertIdx (ax + 1) x).eraseIdx ax) = a :: as.set ax x
      rw [ih ax (Nat.lt_of_succ_lt_succ h)]

theorem eraseIdx_succ_insertIdx (idx : List Nat) (ax j : Nat) (h : ax < idx.length) :
    (idx.insertIdx ax j).eraseIdx (ax + 1) = idx.set ax j := by
  induction idx generalizing ax with
  | nil => simp at h
  | cons a as ih =>
    cases ax with
    | zero => rfl
    | succ ax =>
      show a :: ((as.insertIdx ax j).eraseIdx (ax + 1)) = a :: as.set ax j
      rw [ih ax (Nat.lt_of_succ_lt_succ h)]

theorem getD_insertIdx_of_lt (s : List Nat) (p x t : Nat) (h : t < p) :
    (s.insertIdx p x).getD t 0 = s.getD t 0 := by
  induction s generalizing p t with
  | nil =>
    cases p with
    | zero => simp at h
    | succ p => rfl
  | cons a as ih =>
    cases p with
    | zero => simp at h
    | succ p =>
      cases t with
      | zero => rfl
      | succ t =>
        show (as.insertIdx p x).getD t 0 = as.getD t 0
        exact ih p t (Nat.lt_of_succ_lt_succ h)

theorem mean_newaxis_spec (a : NDArr) (ax : Nat) (hax : ax < a.shape.length) :
    ((a.newaxisAt (ax + 1)).npmean ax).shape = a.shape.set ax 1 ∧
    ∀ idx : List Nat, ax < idx.length →
      ((a.newaxisAt (ax + 1)).npmean ax).val idx
        = (((List.range (a.shape.getD ax 0)).map
            (fun j => a.val (idx.set ax j))).sum) / ((a.shape.getD ax 0 : ℚ)) := by
  constructor
  · show (a.shape.insertIdx (ax + 1) 1).eraseIdx ax = a.shape.set ax 1
    exact eraseIdx_insertIdx_succ a.shape ax 1 hax
  · intro idx hidx
    show (((List.range ((a.shape.insertIdx (ax + 1) 1).getD ax 0)).map
        (fun j => a.val ((idx.insertIdx ax j).eraseIdx (ax + 1)))).sum)
          / (((a.shape.insertIdx (ax + 1) 1).getD ax 0 : ℚ))
      = (((List.range (a.shape.getD ax 0)).map
          (fun j => a.val (idx.set ax j))).sum) / ((a.shape.getD ax 0 : ℚ))
    rw [getD_insertIdx_of_lt a.shape (ax + 1) 1 ax (Nat.lt_succ_self ax)]
    have hfun : ∀ j ∈ List.range (a.shape.getD ax 0),
        a.val ((idx.insertIdx ax j).eraseIdx (ax + 1)) = a.val (idx.set ax j) := by
      intro j _
      rw [eraseIdx_succ_insertIdx idx ax j hidx]
    rw [List.map_congr_left hfun]


/-! ### `reduce_dim`: per-variable step characterization (`mean`, no weights) -/

theorem getAttrStr_congr (f g : PFile) (h : f.fattrs = g.fattrs) (k d : String) :
    f.getAttrStr k d = g.getAttrStr k d := by
  unfold PFile.getAttrStr
  rw [h]

theorem reduceVarStep_mean_none (dimkey : String) (metakeys : List String)
    (f : PFile) (varkey : String) (h : getA f.vars varkey = none) :
    reduceVarStep dimkey "mean" none none metakeys f varkey = some f := by
  unfold reduceVarStep
  rw [h]

theorem reduceVarStep_mean_skip (dimkey : String) (metakeys : List String)
    (f : PFile) (varkey : String) (var : PVar) (h : getA f.vars varkey = some var)
    (h2 : var.dimensions.contains dimkey = false) :
    reduceVarStep dimkey "mean" none none metakeys f varkey = some f := by
  unfold reduceVarStep
  simp only [h]
  rw [if_neg (show ¬ (var.dimensions.contains dimkey = true) by rw [h2]; simp)]

theorem reduceVarStep_mean_update (dimkey : String) (metakeys : List String)
    (f : PFile) (varkey : String) (var : PVar)
    (h : getA f.vars varkey = some var) (h2 : var.dimensions.contains dimkey = true)
    (h3 : metakeys.contains varkey = false) :
    reduceVarStep dimkey "mean" none none metakeys f varkey
      = some { f with vars := setA f.vars varkey (PVar.mk
          ((var.arr.newaxisAt (pyIndex var.dimensions dimkey + 1)).npmean
            (pyIndex var.dimensions dimkey)) var.dimensions var.ncattrs var.attrs) } := by
  unfold reduceVarStep
  simp only [h, h2, h3, npAgg, if_true, Bool.not_false]
  rfl

theorem reduceVarStep_mean_meta (dimkey : String) (metakeys : List String)
    (f : PFile) (varkey : String) (var : PVar)
    (h : getA f.vars varkey = some var) (h2 : var.dimensions.contains dimkey = true)
    (h3 : metakeys.contains varkey = true) :
    ∃ w : PVar, reduceVarStep dimkey "mean" none none metakeys f varkey
      = some { f with vars := setA f.vars varkey w } := by
  unfold reduceVarStep
  simp only [h, h2, h3, npAgg, if_true, Bool.not_true, Bool.false_eq_true, if_false]
  exact ⟨_, rfl⟩


/-- invariant of the per-variable `foldlM` of `reduce_dim` with aggregator
`mean` and no weights: the loop always succeeds, touches only the variable
mapping, and replaces every non-metakey variable referencing `dimkey` by its
mean along that axis (with a length-one axis kept in place). -/
theorem reduceFoldAux (dimkey : String) (metakeys : List String)
    (f0 : PFile) (ks : List String) (g : PFile)
    (hrem : ∀ k ∈ ks, getA g.vars k = getA f0.vars k)
    (hnd : ks.Nodup) :
    ∃ gg, ks.foldlM (reduceVarStep dimkey "mean" none none metakeys) g = some gg ∧
      gg.dimensions = g.dimensions ∧ gg.fncattrs = g.fncattrs ∧ gg.fattrs = g.fattrs ∧
      keysA gg.vars = keysA g.vars ∧
      (∀ k, k ∉ ks → getA gg.vars k = getA g.vars k) ∧
      (∀ k ∈ ks, ∀ var, getA f0.vars k = some var →
        var.dimensions.contains dimkey = true → metakeys.contains k = false →
        getA gg.vars k = some (PVar.mk
          ((var.arr.newaxisAt (pyIndex var.dimensions dimkey + 1)).npmean
            (pyIndex var.dimensions dimkey)) var.dimensions var.ncattrs var.attrs)) ∧
      (∀ k ∈ ks, ∀ var, getA f0.vars k = some var →
        var.dimensions.contains dimkey = false → getA gg.vars k = some var) := by
  induction ks generalizing g with
  | nil =>
    exact ⟨g, rfl, rfl, rfl, rfl, rfl, fun k _ => rfl,
      fun k hk => absurd hk (by simp), fun k hk => absurd hk (by simp)⟩
  | cons k ks ih =>
    have hknotin : k ∉ ks := (List.nodup_cons.mp hnd).1
    have hndks : ks.Nodup := (List.nodup_cons.mp hnd).2
    have hgk : getA g.vars k = getA f0.vars k := hrem k (List.mem_cons_self k ks)
    obtain ⟨g1, hstep, hg1dims, hg1fn, hg1fa, hg1keys, hg1other, hg1mean, hg1skip⟩ :
        ∃ g1, reduceVarStep dimkey "mean" none none metakeys g k = some g1 ∧
          g1.dimensions = g.dimensions ∧ g1.fncattrs = g.fncattrs ∧ g1.fattrs = g.fattrs ∧
          keysA g1.vars = keysA g.vars ∧
          (∀ k2, k2 ≠ k → getA g1.vars k2 = getA g.vars k2) ∧
          (∀ var, getA f0.vars k = some var → var.dimensions.contains dimkey = true →
            metakeys.contains k = false → getA g1.vars k = some (PVar.mk
              ((var.arr.newaxisAt (pyIndex var.dimensions dimkey + 1)).npmean
                (pyIndex var.dimensions dimkey)) var.dimensions var.ncattrs var.attrs)) ∧
          (∀ var, getA f0.vars k = some var → var.dimensions.contains dimkey = false →
            getA g1.vars k = some var) := by
      rcases hf0k : getA f0.vars k with _ | var
      · refine ⟨g, reduceVarStep_mean_none _ _ _ _ (hgk.trans hf0k), rfl, rfl, rfl, rfl,
          fun _ _ => rfl, ?_, ?_⟩
        · intro var hv
          exact absurd hv (by simp)
        · intro var hv
          exact absurd hv (by simp)
      · rcases hcont : var.dimensions.contains dimkey with _ | _
        · refine ⟨g, reduceVarStep_mean_skip _ _ _ _ var (hgk.trans hf0k) hcont, rfl, rfl,
            rfl, rfl, fun _ _ => rfl, ?_, ?_⟩
          · intro var2 hv2 hc2
            cases hv2
            rw [hcont] at hc2
            exact absurd hc2 (by simp)
          · intro var2 hv2 _
            cases hv2
            exact hgk.trans hf0k
        · have hkmem : k ∈ keysA g.vars :=
            mem_keysA_of_getA _ _ (by rw [hgk, hf0k]; rfl)
          rcases hmk : metakeys.contains k with _ | _
          · refine ⟨_, reduceVarStep_mean_update dimkey metakeys g k var (hgk.trans hf0k)
              hcont hmk, rfl, rfl, rfl, ?_, ?_, ?_, ?_⟩
            · exact keysA_setA_of_mem _ _ _ hkmem
            · intro k2 hk2
              exact getA_setA_ne _ _ _ _ hk2
            · intro var2 hv2 _ _
              cases hv2
              exact getA_setA_self _ _ _
            · intro var2 hv2 hc2
              cases hv2
              rw [hcont] at hc2
              exact absurd hc2 (by simp)
          · obtain ⟨w, hw⟩ := reduceVarStep_mean_meta dimkey metakeys g k var
              (hgk.trans hf0k) hcont hmk
            refine ⟨_, hw, rfl, rfl, rfl, ?_, ?_, ?_, ?_⟩
            · exact keysA_setA_of_mem _ _ _ hkmem
            · intro k2 hk2
              exact getA_setA_ne _ _ _ _ hk2
            · intro var2 hv2 _ hm2
              exact absurd hm2 (by simp)
            · intro var2 hv2 hc2
              cases hv2
              rw [hcont] at hc2
              exact absurd hc2 (by simp)
    have hrem1 : ∀ k2 ∈ ks, getA g1.vars k2 = getA f0.vars k2 := by
      intro k2 hk2
      rw [hg1other k2 (fun e => hknotin (e ▸ hk2))]
      exact hrem k2 (List.mem_cons_of_mem k hk2)
    obtain ⟨gg, hgg, hd, hfn, hfa, hkeys, hout, hmean, hskip⟩ := ih g1 hrem1 hndks
    refine ⟨gg, ?_, hd.trans hg1dims, hfn.trans hg1fn, hfa.trans hg1fa,
      hkeys.trans hg1keys, ?_, ?_, ?_⟩
    · rw [List.foldlM_cons, hstep]
      simpa using hgg
    · intro k2 hk2
      rw [hout k2 (fun hh => hk2 (List.mem_cons_of_mem k hh))]
      exact hg1other k2 (fun e => hk2 (e ▸ List.mem_cons_self k ks))
    · intro k2 hk2 var2 hv2 hc2 hm2
      rcases List.mem_cons.mp hk2 with he | hm
      · subst he
        rw [hout k2 hknotin]
        exact hg1mean var2 hv2 hc2 hm2
      · exact hmean k2 hm var2 hv2 hc2 hm2
    · intro k2 hk2 var2 hv2 hc2
      rcases List.mem_cons.mp hk2 with he | hm
      · subst he
        rw [hout k2 hknotin]
        exact hg1skip var2 hv2 hc2
      · exact hskip k2 hm var2 hv2 hc2


/-- parts of `putAttr "history"`: `history` is not a reserved name, so it is
appended to the file attribute tuple and stored. -/
theorem putAttr_history_parts (g : PFile) (v : PyV) :
    (g.putAttr "history" v).dimensions = g.dimensions ∧
    (g.putAttr "history" v).vars = g.vars ∧
    (g.putAttr "history" v).fncattrs = g.fncattrs ++ ["history"] ∧
    (g.putAttr "history" v).fattrs = setA g.fattrs "history" v := by
  have hrec : recordedName "history" = true := by decide
  unfold PFile.putAttr
  rw [hrec]
  exact ⟨rfl, rfl, rfl, rfl⟩

/-- one full run of `reduce_dim` with aggregator `mean`, no weight keys and no
fuzzy siblings of the target dimension, at any sufficient fuel: the dimension
is re-created with length 1 and the read unlimited flag, every non-metakey
variable referencing it is replaced by its mean along that axis (keeping a
length-one axis in place), variables not referencing it survive unchanged, and
the operation description is appended to the `history` attribute. -/
theorem reduce_dimF_mean_no_sibling (fuel : Nat) (f : PFile) (rd : String) (fz : Bool)
    (mk0 : List String) (dimkey : String) (dim0 : PDim)
    (hparse : parseReduceDef rd = some (dimkey, "mean", none, none))
    (hdim : getA f.dimensions dimkey = some dim0)
    (hsib : fuzzySiblings f.dimensions dimkey = [])
    (hnd : (keysA f.vars).Nodup) :
    ∃ f4, reduce_dimF (fuel + 1) f rd fz mk0 = some f4 ∧
      f4.dimensions = setA f.dimensions dimkey ⟨1, dim0.unlimited⟩ ∧
      keysA f4.vars = keysA f.vars ∧
      f4.fncattrs = f.fncattrs ++ ["history"] ∧
      f4.fattrs = setA f.fattrs "history" (.vstr (f.getAttrStr "history" ""
        ++ reduceHistoryDef rd fz (mk0.filter (fun k => (getA f.vars k).isSome)))) ∧
      (∀ k var, getA f.vars k = some var → var.dimensions.contains dimkey = true →
        (mk0.filter (fun k2 => (getA f.vars k2).isSome)).contains k = false →
        getA f4.vars k = some (PVar.mk
          ((var.arr.newaxisAt (pyIndex var.dimensions dimkey + 1)).npmean
            (pyIndex var.dimensions dimkey)) var.dimensions var.ncattrs var.attrs)) ∧
      (∀ k var, getA f.vars k = some var → var.dimensions.contains dimkey = false →
        getA f4.vars k = some var) := by
  rw [reduce_dimF]
  simp only [hparse, hsib]
  rcases dim0 with ⟨L, u⟩
  have hff : (if fz = true then
        List.foldlM (fun g dimk => reduce_dimF fuel g (dimk ++ "," ++ "mean" ++ "" ++ "")
          true defaultMetakeys) f []
      else some f) = some f := by
    cases fz <;> rfl
  rw [hff]
  simp only [hdim]
  have hf3 : (if u = true then (f.createDimension dimkey 1).setDimUnlimited dimkey true
      else f.createDimension dimkey 1)
      = PFile.mk (setA f.dimensions dimkey ⟨1, u⟩) f.vars f.fncattrs f.fattrs := by
    cases u
    · rfl
    · show (f.createDimension dimkey 1).setDimUnlimited dimkey true = _
      unfold PFile.createDimension PFile.setDimUnlimited
      simp only [getA_setA_self, setA_setA]
  rw [hf3]
  rw [show keysA (PFile.mk (setA f.dimensions dimkey ⟨1, u⟩)
    f.vars f.fncattrs f.fattrs).vars = keysA f.vars from rfl]
  obtain ⟨gg, hgg, hd, hfn, hfa, hkeys, hout, hmean, hskip⟩ :=
    reduceFoldAux dimkey (mk0.filter (fun k => (getA f.vars k).isSome)) f (keysA f.vars)
      (PFile.mk (setA f.dimensions dimkey ⟨1, u⟩) f.vars f.fncattrs f.fattrs)
      (fun _ _ => rfl) hnd
  rw [hgg]
  have hp := putAttr_history_parts gg (.vstr (gg.getAttrStr "history" ""
    ++ reduceHistoryDef rd fz (mk0.filter (fun k => (getA f.vars k).isSome))))
  refine ⟨gg.putAttr "history" (.vstr (gg.getAttrStr "history" ""
    ++ reduceHistoryDef rd fz (mk0.filter (fun k => (getA f.vars k).isSome)))),
    rfl, ?_, ?_, ?_, ?_, ?_, ?_⟩
  · rw [hp.1]
    exact hd
  · rw [hp.2.1]
    exact hkeys
  · rw [hp.2.2.1, hfn]
  · rw [hp.2.2.2, getAttrStr_congr gg f (show gg.fattrs = f.fattrs from hfa) "history" "",
      show gg.fattrs = f.fattrs from hfa]
  · intro k var hv hc hm
    rw [hp.2.1]
    exact hmean k (mem_keysA_of_getA f.vars k (by rw [hv]; rfl)) var hv hc hm
  · intro k var hv hc
    rw [hp.2.1]
    exact hskip k (mem_keysA_of_getA f.vars k (by rw [hv]; rfl)) var hv hc


/-- reading back a freshly stored string attribute. -/
theorem getAttrStr_of_fattrs_set (g : PFile) (l : List (String × PyV)) (k s : String)
    (h : g.fattrs = setA l k (.vstr s)) : g.getAttrStr k "" = s := by
  unfold PFile.getAttrStr
  rw [h, getA_setA_self]

/-- `reduce_dim` with the default `fuzzydim = True` on a dimension with one
fuzzy sibling: the sibling is reduced first by the recursive call, so a
variable referencing both dimensions ends up mean-reduced twice — along the
sibling axis first and only then along the requested axis. -/
theorem reduce_dim_mean_one_sibling (f : PFile) (rd : String) (mk0 : List String)
    (dimkey sib : String) (dim0 dimS : PDim)
    (hparse : parseReduceDef rd = some (dimkey, "mean", none, none))
    (hdim : getA f.dimensions dimkey = some dim0)
    (hsib : fuzzySiblings f.dimensions dimkey = [sib])
    (hparse2 : parseReduceDef (sib ++ "," ++ "mean" ++ "" ++ "")
      = some (sib, "mean", none, none))
    (hdimS : getA f.dimensions sib = some dimS)
    (hsibS : fuzzySiblings f.dimensions sib = [])
    (hnd : (keysA f.vars).Nodup)
    (hne : sib ≠ dimkey) :
    ∃ f4, reduce_dim f rd true mk0 = some f4 ∧
      f4.dimensions = setA (setA f.dimensions sib ⟨1, dimS.unlimited⟩) dimkey
        ⟨1, dim0.unlimited⟩ ∧
      keysA f4.vars = keysA f.vars ∧
      (∀ k var, getA f.vars k = some var →
        var.dimensions.contains dimkey = true → var.dimensions.contains sib = true →
        (mk0.filter (fun k2 => (getA f.vars k2).isSome)).contains k = false →
        (defaultMetakeys.filter (fun k2 => (getA f.vars k2).isSome)).contains k = false →
        getA f4.vars k = some (PVar.mk
          ((((var.arr.newaxisAt (pyIndex var.dimensions sib + 1)).npmean
              (pyIndex var.dimensions sib)).newaxisAt
            (pyIndex var.dimensions dimkey + 1)).npmean (pyIndex var.dimensions dimkey))
          var.dimensions var.ncattrs var.attrs)) ∧
      f4.getAttrStr "history" "" = f.getAttrStr "history" ""
        ++ reduceHistoryDef (sib ++ "," ++ "mean" ++ "" ++ "") true
          (defaultMetakeys.filter (fun k2 => (getA f.vars k2).isSome))
        ++ reduceHistoryDef rd true (mk0.filter (fun k2 => (getA f.vars k2).isSome)) := by
  obtain ⟨g1, hg1, hg1dims, hg1keys, hg1fn, hg1fa, hg1mean, hg1skip⟩ :=
    reduce_dimF_mean_no_sibling (((keysA f.dimensions).map strLen).foldl max 0) f
      (sib ++ "," ++ "mean" ++ "" ++ "") true defaultMetakeys sib dimS hparse2 hdimS hsibS hnd
  rcases dim0 with ⟨L, u⟩
  have hdim1 : getA g1.dimensions dimkey = some (PDim.mk L u) := by
    rw [hg1dims, getA_setA_ne f.dimensions sib dimkey _ (Ne.symm hne)]
    exact hdim
  unfold reduce_dim
  rw [show sliceFuel f = (((keysA f.dimensions).map strLen).foldl max 0 + 1) + 1 from rfl]
  rw [reduce_dimF]
  simp only [hparse, hsib]
  have hffold : List.foldlM (fun g dimk => reduce_dimF
        (((keysA f.dimensions).map strLen).foldl max 0 + 1) g
        (dimk ++ "," ++ "mean" ++ "" ++ "") true defaultMetakeys) f [sib] = some g1 := by
    simp only [List.foldlM_cons, List.foldlM_nil]
    rw [hg1]
    rfl
  simp only [if_true]
  rw [hffold]
  simp only [hdim1]
  have hf3 : (if u = true then (g1.createDimension dimkey 1).setDimUnlimited dimkey true
      else g1.createDimension dimkey 1)
      = PFile.mk (setA g1.dimensions dimkey ⟨1, u⟩) g1.vars g1.fncattrs g1.fattrs := by
    cases u
    · rfl
    · show (g1.createDimension dimkey 1).setDimUnlimited dimkey true = _
      unfold PFile.createDimension PFile.setDimUnlimited
      simp only [getA_setA_self, setA_setA]
  rw [hf3]
  rw [show keysA (PFile.mk (setA g1.dimensions dimkey ⟨1, u⟩)
    g1.vars g1.fncattrs g1.fattrs).vars = keysA g1.vars from rfl]
  rw [hg1keys]
  obtain ⟨gg, hgg, hd, hfn2, hfa2, hkeys2, hout2, hmean2, hskip2⟩ :=
    reduceFoldAux dimkey (mk0.filter (fun k => (getA f.vars k).isSome)) g1 (keysA f.vars)
      (PFile.mk (setA g1.dimensions dimkey ⟨1, u⟩) g1.vars g1.fncattrs g1.fattrs)
      (fun _ _ => rfl) hnd
  rw [hgg]
  have hp := putAttr_history_parts gg (.vstr (gg.getAttrStr "history" ""
    ++ reduceHistoryDef rd true (mk0.filter (fun k => (getA f.vars k).isSome))))
  refine ⟨gg.putAttr "history" (.vstr (gg.getAttrStr "history" ""
    ++ reduceHistoryDef rd true (mk0.filter (fun k => (getA f.vars k).isSome)))),
    rfl, ?_, ?_, ?_, ?_⟩
  · rw [hp.1]
    rw [show gg.dimensions = setA g1.dimensions dimkey ⟨1, u⟩ from hd, hg1dims]
  · rw [hp.2.1]
    exact hkeys2.trans hg1keys
  · intro k var hv hcd hcs hm hmD
    rw [hp.2.1]
    have hv1 := hg1mean k var hv hcs hmD
    exact hmean2 k (mem_keysA_of_getA f.vars k (by rw [hv]; rfl)) _ hv1 hcd hm
  · rw [getAttrStr_of_fattrs_set _ gg.fattrs "history" _ hp.2.2.2,
      getAttrStr_of_fattrs_set gg f.fattrs "history" _ (hfa2.trans hg1fa)]


/-- C3 fails as stated: with the default `fuzzydim = True`, a fuzzy sibling
dimension (`lay0` next to the target `lay`) is reduced first by the recursive
call, so the surviving value is the mean of the already sibling-averaged data,
not the mean of the variable's original data across the requested axis.  On
the example Dataset the original mean across `lay` at index `[0, 0]` is `0`,
but `reduce_dim` leaves the value `1`. -/
theorem reduce_mean_counterexample :
    (reduce_dim exSiblingFile "lay,mean" true defaultMetakeys).map
        (fun g => (getA g.vars "v").map (fun v => v.arr.val [0, 0]))
      = some (some 1) ∧
    (getA exSiblingFile.vars "v").map (fun v =>
        (((List.range 2).map (fun j => v.arr.val ([0, 0].set 1 j))).sum) / (2 : ℚ))
      = some 0 ∧
    (1 : ℚ) ≠ 0 := by
  refine ⟨?_, ?_, by norm_num⟩
  · obtain ⟨f4, hf4, hdims4, hkeys4, hmean4, hhist4⟩ := reduce_dim_mean_one_sibling exSiblingFile
      "lay,mean" defaultMetakeys "lay" "lay0" ⟨2, true⟩ ⟨2, false⟩ (by decide) (by decide)
      (by decide) (by decide) (by decide) (by decide) (by decide) (by decide)
    have hv4 := hmean4 "v" ⟨arr2 [[0, 0], [2, 2]], ["lay0", "lay"], ["units"],
      [("units", .vstr "ppbv")]⟩ rfl (by decide) (by decide) (by decide) (by decide)
    dsimp only at hv4
    rw [(by decide : pyIndex ["lay0", "lay"] "lay0" = 0),
      (by decide : pyIndex ["lay0", "lay"] "lay" = 1)] at hv4
    rw [hf4, Option.map_some', hv4, Option.map_some']
    refine congrArg some (congrArg some ?_)
    show (((((arr2 [[0, 0], [2, 2]]).newaxisAt (0 + 1)).npmean 0).newaxisAt
      (1 + 1)).npmean 1).val [0, 0] = 1
    have hA1 := mean_newaxis_spec (arr2 [[0, 0], [2, 2]]) 0 (by decide)
    have hA2 := mean_newaxis_spec (((arr2 [[0, 0], [2, 2]]).newaxisAt (0 + 1)).npmean 0) 1
      (by rw [hA1.1]; decide)
    rw [hA2.2 [0, 0] (by decide), hA1.1]
    simp only [(by decide : (((arr2 [[0, 0], [2, 2]]).shape.set 0 1).getD 1 0) = 2),
      (by decide : List.range 2 = [0, 1]), List.map_cons, List.map_nil,
      List.sum_cons, List.sum_nil,
      (by decide : ([0, 0] : List Nat).set 1 0 = [0, 0]),
      (by decide : ([0, 0] : List Nat).set 1 1 = [0, 1])]
    rw [hA1.2 [0, 0] (by decide), hA1.2 [0, 1] (by decide)]
    simp only [(by decide : ((arr2 [[0, 0], [2, 2]]).shape.getD 0 0) = 2),
      (by decide : List.range 2 = [0, 1]), List.map_cons, List.map_nil,
      List.sum_cons, List.sum_nil,
      (by decide : ([0, 0] : List Nat).set 0 0 = [0, 0]),
      (by decide : ([0, 0] : List Nat).set 0 1 = [1, 0]),
      (by decide : ([0, 1] : List Nat).set 0 0 = [0, 1]),
      (by decide : ([0, 1] : List Nat).set 0 1 = [1, 1]),
      (show (arr2 [[0, 0], [2, 2]]).val [0, 0] = 0 from rfl),
      (show (arr2 [[0, 0], [2, 2]]).val [1, 0] = 2 from rfl),
      (show (arr2 [[0, 0], [2, 2]]).val [0, 1] = 0 from rfl),
      (show (arr2 [[0, 0], [2, 2]]).val [1, 1] = 2 from rfl)]
    norm_num
  · rw [(show getA exSiblingFile.vars "v" = some ⟨arr2 [[0, 0], [2, 2]], ["lay0", "lay"],
      ["units"], [("units", .vstr "ppbv")]⟩ from rfl), Option.map_some']
    refine congrArg some ?_
    simp only [(by decide : List.range 2 = [0, 1]), List.map_cons, List.map_nil,
      List.sum_cons, List.sum_nil,
      (by decide : ([0, 0] : List Nat).set 1 0 = [0, 0]),
      (by decide : ([0, 0] : List Nat).set 1 1 = [0, 1])]
    rw [(show (arr2 [[0, 0], [2, 2]]).val [0, 0] = 0 from rfl),
      (show (arr2 [[0, 0], [2, 2]]).val [0, 1] = 0 from rfl)]
    norm_num


/-- C3 amended: for a Dataset with a dimension `dim` of length `L` and no
fuzzy-sibling dimension names (which the default `fuzzydim = True` would
reduce first), `reduce_dim` with `dim,mean` and the default `metakeys` leaves
dimension `dim` with length 1, preserves its unlimited flag, and every
non-metadata variable referencing `dim` keeps its dimension tuple and
attributes while its sole values along that axis (the axis is kept with
length 1) equal the arithmetic mean across that axis of the variable's
original data. -/
theorem reduce_mean_spec (f : PFile) (rd : String) (fz : Bool) (dimkey : String)
    (L : Nat) (u : Bool)
    (hWf : f.WfP)
    (hparse : parseReduceDef rd = some (dimkey, "mean", none, none))
    (hdim : getA f.dimensions dimkey = some ⟨L, u⟩)
    (hsib : fuzzySiblings f.dimensions dimkey = []) :
    ∃ f4, reduce_dim f rd fz defaultMetakeys = some f4 ∧
      getA f4.dimensions dimkey = some ⟨1, u⟩ ∧
      ∀ k var, getA f.vars k = some var →
        var.dimensions.contains dimkey = true →
        (defaultMetakeys.filter (fun k2 => (getA f.vars k2).isSome)).contains k = false →
        ∃ var4, getA f4.vars k = some var4 ∧
          var4.dimensions = var.dimensions ∧ var4.ncattrs = var.ncattrs ∧
          var4.attrs = var.attrs ∧
          var4.arr.shape = var.arr.shape.set (pyIndex var.dimensions dimkey) 1 ∧
          ∀ idx, pyIndex var.dimensions dimkey < idx.length →
            var4.arr.val idx = (((List.range L).map
                (fun j => var.arr.val (idx.set (pyIndex var.dimensions dimkey) j))).sum)
              / ((L : Nat) : ℚ) := by
  obtain ⟨f4, hf4, hdims, hkeys, hfn, hfa, hmean, hskip⟩ :=
    reduce_dimF_mean_no_sibling (((keysA f.dimensions).map strLen).foldl max 0 + 1) f rd fz
      defaultMetakeys dimkey ⟨L, u⟩ hparse hdim hsib hWf.2.1
  refine ⟨f4, ?_, ?_, ?_⟩
  · unfold reduce_dim
    rw [show sliceFuel f = (((keysA f.dimensions).map strLen).foldl max 0 + 1) + 1 from rfl]
    exact hf4
  · rw [hdims]
    exact getA_setA_self _ _ _
  · intro k var hv hc hm
    have hv4 := hmean k var hv hc hm
    have hmem : dimkey ∈ var.dimensions := (contains_iff_mem _ _).mp hc
    obtain ⟨hidx, hgetd⟩ := pyIndex_spec var.dimensions dimkey hmem
    obtain ⟨hlen, hcons⟩ := hWf.2.2 (k, var) (mem_of_getA f.vars k var hv)
    have hax : pyIndex var.dimensions dimkey < var.arr.shape.length := by
      rw [hlen]
      exact hidx
    have hL : var.arr.shape.getD (pyIndex var.dimensions dimkey) 0 = L := by
      have hc2 := hcons (pyIndex var.dimensions dimkey) hidx
      rw [hgetd, hdim, Option.map_some'] at hc2
      exact (Option.some.inj hc2).symm
    obtain ⟨hsh, hval⟩ := mean_newaxis_spec var.arr (pyIndex var.dimensions dimkey) hax
    refine ⟨_, hv4, rfl, rfl, rfl, ?_, ?_⟩
    · show ((var.arr.newaxisAt (pyIndex var.dimensions dimkey + 1)).npmean
        (pyIndex var.dimensions dimkey)).shape = _
      exact hsh
    · intro idx hidxlen
      show ((var.arr.newaxisAt (pyIndex var.dimensions dimkey + 1)).npmean
        (pyIndex var.dimensions dimkey)).val idx = _
      rw [hval idx hidxlen, hL]

/-- witness instantiating the amended C3 on the example Dataset: reducing
`lay` (length 2, unlimited) with `mean`. -/
theorem reduce_mean_spec_witness :
    exReduceFile.WfP ∧
    parseReduceDef "lay,mean" = some ("lay", "mean", none, none) ∧
    getA exReduceFile.dimensions "lay" = some ⟨2, true⟩ ∧
    fuzzySiblings exReduceFile.dimensions "lay" = [] ∧
    (∃ f4, reduce_dim exReduceFile "lay,mean" true defaultMetakeys = some f4 ∧
      getA f4.dimensions "lay" = some ⟨1, true⟩ ∧
      ∀ k var, getA exReduceFile.vars k = some var →
        var.dimensions.contains "lay" = true →
        (defaultMetakeys.filter (fun k2 => (getA exReduceFile.vars k2).isSome)).contains k
          = false →
        ∃ var4, getA f4.vars k = some var4 ∧
          var4.dimensions = var.dimensions ∧ var4.ncattrs = var.ncattrs ∧
          var4.attrs = var.attrs ∧
          var4.arr.shape = var.arr.shape.set (pyIndex var.dimensions "lay") 1 ∧
          ∀ idx, pyIndex var.dimensions "lay" < idx.length →
            var4.arr.val idx = (((List.range 2).map
                (fun j => var.arr.val (idx.set (pyIndex var.dimensions "lay") j))).sum)
              / ((2 : Nat) : ℚ)) :=
  ⟨by decide, by decide, by decide, by decide,
    reduce_mean_spec exReduceFile "lay,mean" true "lay" 2 true (by decide) (by decide)
      (by decide) (by decide)⟩


/-! ### C6: fuzzy sibling selection -/

theorem strTake_append_strDrop (s : String) (n : Nat) : strTake s n ++ strDrop s n = s := by
  show (⟨s.data.take n ++ s.data.drop n⟩ : String) = s
  rw [List.take_append_drop]

theorem strTake_left (a b : String) : strTake (a ++ b) (strLen a) = a := by
  show (⟨(a.data ++ b.data).take a.data.length⟩ : String) = a
  rw [List.take_left]

theorem strDrop_left (a b : String) : strDrop (a ++ b) (strLen a) = b := by
  show (⟨(a.data ++ b.data).drop a.data.length⟩ : String) = b
  rw [List.drop_left]

theorem strLen_append (a b : String) : strLen (a ++ b) = strLen a + strLen b := by
  show (a.data ++ b.data).length = a.data.length + b.data.length
  rw [List.length_append]

theorem pyIsDigit_ne_empty (s : String) (h : pyIsDigit s = true) : s ≠ "" := by
  intro he
  rw [he] at h
  exact absurd h (by decide)

/-- membership in the fuzzy-sibling list: exactly the dimension names equal to
the target name followed by a nonempty all-digit suffix. -/
theorem mem_fuzzySiblings_iff (dims : List (String × PDim)) (dimkey key : String) :
    key ∈ fuzzySiblings dims dimkey ↔ key ∈ keysA dims ∧
      ∃ suf, suf ≠ "" ∧ key = dimkey ++ suf ∧ pyIsDigit suf = true := by
  unfold fuzzySiblings
  rw [List.mem_filter]
  constructor
  · rintro ⟨hmem, hp⟩
    rw [Bool.and_eq_true] at hp
    obtain ⟨h1, h2⟩ := hp
    refine ⟨hmem, strDrop key (strLen dimkey), pyIsDigit_ne_empty _ h2, ?_, h2⟩
    have he : dimkey = strTake key (strLen dimkey) := eq_of_beq h1
    exact (strTake_append_strDrop key (strLen dimkey)).symm.trans
      (congrArg (fun a => a ++ strDrop key (strLen dimkey)) he.symm)
  · rintro ⟨hmem, suf, hne, hkey, hdig⟩
    refine ⟨hmem, ?_⟩
    rw [Bool.and_eq_true]
    subst hkey
    constructor
    · rw [strTake_left]
      simp
    · rw [strDrop_left]
      exact hdig

/-- a dimension is never its own fuzzy sibling (the suffix would be empty,
and the empty string is not all-digit). -/
theorem self_not_mem_fuzzySiblings (dims : List (String × PDim)) (dimkey : String) :
    dimkey ∉ fuzzySiblings dims dimkey := by
  intro h
  obtain ⟨-, suf, hne, hkey, -⟩ := (mem_fuzzySiblings_iff dims dimkey dimkey).mp h
  apply hne
  have h0 : strLen suf = 0 := by
    have hlen := congrArg strLen hkey
    rw [strLen_append] at hlen
    omega
  have hdata : suf.data = [] := List.length_eq_zero.mp h0
  rcases suf with ⟨d⟩
  cases hdata
  rfl

/-- C6: with fuzzy matching enabled, exactly the other dimensions whose name
is the target name followed by a purely numeric suffix are treated as
siblings (the target itself is excluded), and each sibling's transformation
is applied before the target's: on a one-sibling Dataset the variables are
mean-reduced along the sibling axis first and the sibling's operation
description precedes the target's in `history`. -/
theorem fuzzy_sibling_spec :
    (∀ (dims : List (String × PDim)) (dimkey key : String),
      (key ∈ fuzzySiblings dims dimkey ↔ key ∈ keysA dims ∧
        ∃ suf, suf ≠ "" ∧ key = dimkey ++ suf ∧ pyIsDigit suf = true) ∧
      dimkey ∉ fuzzySiblings dims dimkey) ∧
    (∀ (f : PFile) (rd : String) (mk0 : List String) (dimkey sib : String)
        (dim0 dimS : PDim),
      parseReduceDef rd = some (dimkey, "mean", none, none) →
      getA f.dimensions dimkey = some dim0 →
      fuzzySiblings f.dimensions dimkey = [sib] →
      parseReduceDef (sib ++ "," ++ "mean" ++ "" ++ "") = some (sib, "mean", none, none) →
      getA f.dimensions sib = some dimS →
      fuzzySiblings f.dimensions sib = [] →
      (keysA f.vars).Nodup →
      sib ≠ dimkey →
      ∃ f4, reduce_dim f rd true mk0 = some f4 ∧
        (∀ k var, getA f.vars k = some var →
          var.dimensions.contains dimkey = true → var.dimensions.contains sib = true →
          (mk0.filter (fun k2 => (getA f.vars k2).isSome)).contains k = false →
          (defaultMetakeys.filter (fun k2 => (getA f.vars k2).isSome)).contains k = false →
          getA f4.vars k = some (PVar.mk
            ((((var.arr.newaxisAt (pyIndex var.dimensions sib + 1)).npmean
                (pyIndex var.dimensions sib)).newaxisAt
              (pyIndex var.dimensions dimkey + 1)).npmean (pyIndex var.dimensions dimkey))
            var.dimensions var.ncattrs var.attrs)) ∧
        f4.getAttrStr "history" "" = f.getAttrStr "history" ""
          ++ reduceHistoryDef (sib ++ "," ++ "mean" ++ "" ++ "") true
            (defaultMetakeys.filter (fun k2 => (getA f.vars k2).isSome))
          ++ reduceHistoryDef rd true (mk0.filter (fun k2 => (getA f.vars k2).isSome))) := by
  refine ⟨fun dims dimkey key => ⟨mem_fuzzySiblings_iff dims dimkey key,
    self_not_mem_fuzzySiblings dims dimkey⟩, ?_⟩
  intro f rd mk0 dimkey sib dim0 dimS hparse hdim hsib hparse2 hdimS hsibS hnd hne
  obtain ⟨f4, h1, h2, h3, h4, h5⟩ := reduce_dim_mean_one_sibling f rd mk0 dimkey sib dim0
    dimS hparse hdim hsib hparse2 hdimS hsibS hnd hne
  exact ⟨f4, h1, h4, h5⟩

/-- witness instantiating C6 on the example sibling Dataset: `lay0` is a
fuzzy sibling of `lay`, `lay` is not its own sibling, and the sibling
reduction precedes the target reduction. -/
theorem fuzzy_sibling_spec_witness :
    (("lay0" ∈ fuzzySiblings exSiblingFile.dimensions "lay" ↔
        "lay0" ∈ keysA exSiblingFile.dimensions ∧
        ∃ suf, suf ≠ "" ∧ "lay0" = "lay" ++ suf ∧ pyIsDigit suf = true) ∧
      "lay" ∉ fuzzySiblings exSiblingFile.dimensions "lay") ∧
    (∃ f4, reduce_dim exSiblingFile "lay,mean" true defaultMetakeys = some f4 ∧
      (∀ k var, getA exSiblingFile.vars k = some var →
        var.dimensions.contains "lay" = true → var.dimensions.contains "lay0" = true →
        (defaultMetakeys.filter (fun k2 => (getA exSiblingFile.vars k2).isSome)).contains k
          = false →
        (defaultMetakeys.filter (fun k2 => (getA exSiblingFile.vars k2).isSome)).contains k
          = false →
        getA f4.vars k = some (PVar.mk
          ((((var.arr.newaxisAt (pyIndex var.dimensions "lay0" + 1)).npmean
              (pyIndex var.dimensions "lay0")).newaxisAt
            (pyIndex var.dimensions "lay" + 1)).npmean (pyIndex var.dimensions "lay"))
          var.dimensions var.ncattrs var.attrs)) ∧
      f4.getAttrStr "history" "" = exSiblingFile.getAttrStr "history" ""
        ++ reduceHistoryDef ("lay0" ++ "," ++ "mean" ++ "" ++ "") true
          (defaultMetakeys.filter (fun k2 => (getA exSiblingFile.vars k2).isSome))
        ++ reduceHistoryDef "lay,mean" true
          (defaultMetakeys.filter (fun k2 => (getA exSiblingFile.vars k2).isSome))) :=
  ⟨fuzzy_sibling_spec.1 exSiblingFile.dimensions "lay" "lay0",
   fuzzy_sibling_spec.2 exSiblingFile "lay,mean" defaultMetakeys "lay" "lay0" ⟨2, true⟩
     ⟨2, false⟩ (by decide) (by decide) (by decide) (by decide) (by decide) (by decide)
     (by decide) (by decide)⟩


/-! ### C9: in-place mutation of the argument Dataset -/

theorem sliceVarStep_fncattrs (dimkey : String) (dmin dmax dstride : Option Int)
    (unl : Bool) (g : PFile) (k : String) :
    (sliceVarStep dimkey dmin dmax dstride unl g k).fncattrs = g.fncattrs := by
  rcases hgv : getA g.vars k with _ | var
  · rw [sliceVarStep_eq_none dimkey dmin dmax dstride unl g k hgv]
  · rcases hc : var.dimensions.contains dimkey with _ | _
    · rw [sliceVarStep_eq_skip dimkey dmin dmax dstride unl g k var hgv hc]
    · rw [sliceVarStep_eq_update dimkey dmin dmax dstride unl g k var hgv hc]

theorem sliceFold_fncattrs (dimkey : String) (dmin dmax dstride : Option Int) (unl : Bool)
    (ks : List String) : ∀ g : PFile,
    (ks.foldl (sliceVarStep dimkey dmin dmax dstride unl) g).fncattrs = g.fncattrs := by
  induction ks with
  | nil => intro g; rfl
  | cons k ks ih =>
    intro g
    rw [List.foldl_cons, ih, sliceVarStep_fncattrs]

theorem putAttr_fncattrs_history (g : PFile) (v : PyV) :
    (g.putAttr "history" v).fncattrs = g.fncattrs ++ ["history"] :=
  (putAttr_history_parts g v).2.2.1

/-- every successful `slice_dim` run appends at least the operation
description to the file attribute tuple via `history` (fuzzy recursion may
append more entries first): the returned Dataset is the mutated argument, not
an unchanged copy. -/
theorem slice_dimF_fncattrs (fuel : Nat) :
    ∀ (f : PFile) (sd : String) (fz : Bool) (f4 : PFile),
      slice_dimF fuel f sd fz = some f4 →
      ∃ l : List String, f4.fncattrs = f.fncattrs ++ l ++ ["history"] := by
  induction fuel with
  | zero =>
    intro f sd fz f4 h
    exact absurd h (by simp [slice_dimF])
  | succ fuel ih =>
    have haux : ∀ (bld : String → String) (ks : List String) (g g' : PFile),
        ks.foldlM (fun g2 dimk => slice_dimF fuel g2 (bld dimk) true) g = some g' →
        ∃ l : List String, g'.fncattrs = g.fncattrs ++ l := by
      intro bld ks
      induction ks with
      | nil =>
        intro g g' hh
        simp only [List.foldlM_nil] at hh
        cases hh
        exact ⟨[], by simp⟩
      | cons k ks ihk =>
        intro g g' hh
        simp only [List.foldlM_cons] at hh
        rcases hstep : slice_dimF fuel g (bld k) true with _ | g1
        · rw [hstep] at hh
          simp at hh
        · rw [hstep] at hh
          rw [show (some g1 >>= fun b => List.foldlM
              (fun g2 dimk => slice_dimF fuel g2 (bld dimk) true) b ks)
            = List.foldlM (fun g2 dimk => slice_dimF fuel g2 (bld dimk) true) g1 ks
            from rfl] at hh
          obtain ⟨l2, h2⟩ := ihk g1 g' hh
          obtain ⟨l1, h1⟩ := ih g (bld k) true g1 hstep
          refine ⟨l1 ++ ["history"] ++ l2, ?_⟩
          rw [h2, h1]
          simp [List.append_assoc]
    intro f sd fz f4 h
    rw [slice_dimF] at h
    rcases hp : parseSliceDef sd with _ | q
    · simp only [hp] at h
      exact absurd h (by simp)
    · obtain ⟨dimkey, dmin, dmax, dstride⟩ := q
      simp only [hp] at h
      rcases hd : getA f.dimensions dimkey with _ | dim0
      · simp only [hd] at h
        exact absurd h (by simp)
      · simp only [hd] at h
        cases fz with
        | false =>
          simp only [Bool.false_eq_true, if_false] at h
          cases h
          refine ⟨[], ?_⟩
          rw [putAttr_fncattrs_history, sliceFold_fncattrs]
          simp
        | true =>
          simp only [if_true] at h
          rcases hsf : List.foldlM (fun g dimk => slice_dimF fuel g
              (dimk ++ "," ++ optIntRepr dmin ++ "," ++ optIntRepr dmax ++ ","
                ++ optIntRepr dstride) true) f (fuzzySiblings f.dimensions dimkey)
            with _ | f1
          · simp only [hsf] at h
            exact absurd h (by simp)
          · simp only [hsf] at h
            cases h
            obtain ⟨l1, h1⟩ := haux
              (fun dimk => dimk ++ "," ++ optIntRepr dmin ++ "," ++ optIntRepr dmax ++ ","
                ++ optIntRepr dstride) (fuzzySiblings f.dimensions dimkey) f f1 hsf
            refine ⟨l1, ?_⟩
            rw [putAttr_fncattrs_history, sliceFold_fncattrs, h1]


theorem reduceVarStep_fncattrs (dimkey func : String) (numw denw : Option PVar)
    (mk : List String) (g : PFile) (k : String) (g2 : PFile)
    (h : reduceVarStep dimkey func numw denw mk g k = some g2) :
    g2.fncattrs = g.fncattrs := by
  unfold reduceVarStep at h
  rcases hgv : getA g.vars k with _ | var
  · simp only [hgv] at h
    cases h
    rfl
  · simp only [hgv] at h
    rcases hc : var.dimensions.contains dimkey with _ | _
    · simp only [hc, Bool.false_eq_true, if_false] at h
      cases h
      rfl
    · simp only [hc, if_true] at h
      rcases hagg : npAgg func with _ | agg
      · simp only [hagg] at h
        exact absurd h (by simp)
      · simp only [hagg] at h
        cases h
        rfl

theorem reduceFold_fncattrs (dimkey func : String) (numw denw : Option PVar)
    (mk : List String) (ks : List String) :
    ∀ (g g2 : PFile), ks.foldlM (reduceVarStep dimkey func numw denw mk) g = some g2 →
      g2.fncattrs = g.fncattrs := by
  induction ks with
  | nil =>
    intro g g2 h
    simp only [List.foldlM_nil] at h
    cases h
    rfl
  | cons k ks ih =>
    intro g g2 h
    simp only [List.foldlM_cons] at h
    rcases hstep : reduceVarStep dimkey func numw denw mk g k with _ | g1
    · rw [hstep] at h
      simp at h
    · rw [hstep] at h
      rw [show (some g1 >>= fun b => List.foldlM (reduceVarStep dimkey func numw denw mk)
          b ks) = List.foldlM (reduceVarStep dimkey func numw denw mk) g1 ks from rfl] at h
      rw [ih g1 g2 h, reduceVarStep_fncattrs dimkey func numw denw mk g k g1 hstep]

theorem createDim_fncattrs (g : PFile) (n : String) (len : Nat) (b : Bool) :
    (if b = true then (g.createDimension n len).setDimUnlimited n true
      else g.createDimension n len).fncattrs = g.fncattrs := by
  cases b
  · rfl
  · rfl

/-- every successful `reduce_dim` run likewise appends at least the operation
description to the file attribute tuple via `history`. -/
theorem reduce_dimF_fncattrs (fuel : Nat) :
    ∀ (f : PFile) (rd : String) (fz : Bool) (mk : List String) (f4 : PFile),
      reduce_dimF fuel f rd fz mk = some f4 →
      ∃ l : List String, f4.fncattrs = f.fncattrs ++ l ++ ["history"] := by
  induction fuel with
  | zero =>
    intro f rd fz mk f4 h
    exact absurd h (by simp [reduce_dimF])
  | succ fuel ih =>
    have haux : ∀ (bld : String → String) (ks : List String) (g g2 : PFile),
        ks.foldlM (fun g3 dimk => reduce_dimF fuel g3 (bld dimk) true defaultMetakeys) g
          = some g2 →
        ∃ l : List String, g2.fncattrs = g.fncattrs ++ l := by
      intro bld ks
      induction ks with
      | nil =>
        intro g g2 hh
        simp only [List.foldlM_nil] at hh
        cases hh
        exact ⟨[], by simp⟩
      | cons k ks ihk =>
        intro g g2 hh
        simp only [List.foldlM_cons] at hh
        rcases hstep : reduce_dimF fuel g (bld k) true defaultMetakeys with _ | g1
        · rw [hstep] at hh
          simp at hh
        · rw [hstep] at hh
          rw [show (some g1 >>= fun b => List.foldlM
              (fun g3 dimk => reduce_dimF fuel g3 (bld dimk) true defaultMetakeys) b ks)
            = List.foldlM (fun g3 dimk => reduce_dimF fuel g3 (bld dimk) true
              defaultMetakeys) g1 ks from rfl] at hh
          obtain ⟨l2, h2⟩ := ihk g1 g2 hh
          obtain ⟨l1, h1⟩ := ih g (bld k) true defaultMetakeys g1 hstep
          refine ⟨l1 ++ ["history"] ++ l2, ?_⟩
          rw [h2, h1]
          simp [List.append_assoc]
    intro f rd fz mk f4 h
    have htail : ∀ (numw denw : Option PVar) (dimkey func : String) (mks : List String)
        (f1 f5 : PFile),
        (match getA f1.dimensions dimkey with
          | none => none
          | some dim0 =>
            let unlimited := dim0.unlimited
            let f2 := f1.createDimension dimkey 1
            let f3 := if unlimited then f2.setDimUnlimited dimkey true else f2
            match (keysA f3.vars).foldlM (reduceVarStep dimkey func numw denw mks) f3 with
            | none => none
            | some f6 =>
              some (f6.putAttr "history" (.vstr (f6.getAttrStr "history" ""
                ++ reduceHistoryDef rd fz mks)))) = some f5 →
        f5.fncattrs = f1.fncattrs ++ ["history"] := by
      intro numw denw dimkey func mks f1 f5 hh
      rcases hd : getA f1.dimensions dimkey with _ | dim0
      · simp only [hd] at hh
        exact absurd hh (by simp)
      · simp only [hd] at hh
        rcases hfold : (keysA (if dim0.unlimited = true
            then (f1.createDimension dimkey 1).setDimUnlimited dimkey true
            else f1.createDimension dimkey 1).vars).foldlM
            (reduceVarStep dimkey func numw denw mks)
            (if dim0.unlimited = true
              then (f1.createDimension dimkey 1).setDimUnlimited dimkey true
              else f1.createDimension dimkey 1) with _ | f6
        · simp only [hfold] at hh
          exact absurd hh (by simp)
        · simp only [hfold] at hh
          cases hh
          rw [putAttr_fncattrs_history,
            reduceFold_fncattrs dimkey func numw denw mks _ _ _ hfold, createDim_fncattrs]
    rw [reduce_dimF] at h
    rcases hp : parseReduceDef rd with _ | q
    · simp only [hp] at h
      exact absurd h (by simp)
    · obtain ⟨dimkey, func, numwkey, denwkey⟩ := q
      simp only [hp] at h
      rcases numwkey with _ | nk <;> rcases denwkey with _ | dk
      · cases fz with
        | false =>
          simp only [Bool.false_eq_true, if_false] at h
          exact ⟨[], by
            rw [htail none none dimkey func
              (mk.filter (fun k2 => (getA f.vars k2).isSome)) f f4 h]
            simp⟩
        | true =>
          simp only [if_true] at h
          rcases hsf : List.foldlM (fun g dimk => reduce_dimF fuel g
              (dimk ++ "," ++ func ++ "" ++ "") true defaultMetakeys) f
              (fuzzySiblings f.dimensions dimkey) with _ | f1
          · simp only [hsf] at h
            exact absurd h (by simp)
          · simp only [hsf] at h
            obtain ⟨l1, h1⟩ := haux (fun dimk => dimk ++ "," ++ func ++ "" ++ "")
              (fuzzySiblings f.dimensions dimkey) f f1 hsf
            have h2 := htail none none dimkey func
              (mk.filter (fun k2 => (getA f.vars k2).isSome)) f1 f4 h
            exact ⟨l1, by rw [h2, h1]⟩
      · rcases hw : getA f.vars dk with _ | wv
        · simp only [hw, Option.map_none'] at h
          exact absurd h (by simp)
        · simp only [hw, Option.map_some'] at h
          cases fz with
          | false =>
            simp only [Bool.false_eq_true, if_false] at h
            exact ⟨[], by
              rw [htail none (some wv) dimkey func
                (mk.filter (fun k2 => (getA f.vars k2).isSome)) f f4 h]
              simp⟩
          | true =>
            simp only [if_true] at h
            rcases hsf : List.foldlM (fun g dimk => reduce_dimF fuel g
                (dimk ++ "," ++ func ++ "" ++ ("," ++ dk)) true defaultMetakeys) f
                (fuzzySiblings f.dimensions dimkey) with _ | f1
            · simp only [hsf] at h
              exact absurd h (by simp)
            · simp only [hsf] at h
              obtain ⟨l1, h1⟩ := haux
                (fun dimk => dimk ++ "," ++ func ++ "" ++ ("," ++ dk))
                (fuzzySiblings f.dimensions dimkey) f f1 hsf
              have h2 := htail none (some wv) dimkey func
                (mk.filter (fun k2 => (getA f.vars k2).isSome)) f1 f4 h
              exact ⟨l1, by rw [h2, h1]⟩
      · rcases hw : getA f.vars nk with _ | wv
        · simp only [hw, Option.map_none'] at h
          exact absurd h (by simp)
        · simp only [hw, Option.map_some'] at h
          cases fz with
          | false =>
            simp only [Bool.false_eq_true, if_false] at h
            exact ⟨[], by
              rw [htail (some wv) none dimkey func
                (mk.filter (fun k2 => (getA f.vars k2).isSome)) f f4 h]
              simp⟩
          | true =>
            simp only [if_true] at h
            rcases hsf : List.foldlM (fun g dimk => reduce_dimF fuel g
                (dimk ++ "," ++ func ++ ("," ++ nk) ++ "") true defaultMetakeys) f
                (fuzzySiblings f.dimensions dimkey) with _ | f1
            · simp only [hsf] at h
              exact absurd h (by simp)
            · simp only [hsf] at h
              obtain ⟨l1, h1⟩ := haux
                (fun dimk => dimk ++ "," ++ func ++ ("," ++ nk) ++ "")
                (fuzzySiblings f.dimensions dimkey) f f1 hsf
              have h2 := htail (some wv) none dimkey func
                (mk.filter (fun k2 => (getA f.vars k2).isSome)) f1 f4 h
              exact ⟨l1, by rw [h2, h1]⟩
      · rcases hw : getA f.vars nk with _ | wvn
        · simp only [hw, Option.map_none'] at h
          exact absurd h (by simp)
        · rcases hw2 : getA f.vars dk with _ | wvd
          · simp only [hw, hw2, Option.map_some', Option.map_none'] at h
            exact absurd h (by simp)
          · simp only [hw, hw2, Option.map_some'] at h
            cases fz with
            | false =>
              simp only [Bool.false_eq_true, if_false] at h
              exact ⟨[], by
                rw [htail (some wvn) (some wvd) dimkey func
                  (mk.filter (fun k2 => (getA f.vars k2).isSome)) f f4 h]
                simp⟩
            | true =>
              simp only [if_true] at h
              rcases hsf : List.foldlM (fun g dimk => reduce_dimF fuel g
                  (dimk ++ "," ++ func ++ ("," ++ nk) ++ ("," ++ dk)) true
                    defaultMetakeys) f
                  (fuzzySiblings f.dimensions dimkey) with _ | f1
              · simp only [hsf] at h
                exact absurd h (by simp)
              · simp only [hsf] at h
                obtain ⟨l1, h1⟩ := haux
                  (fun dimk => dimk ++ "," ++ func ++ ("," ++ nk) ++ ("," ++ dk))
                  (fuzzySiblings f.dimensions dimkey) f f1 hsf
                have h2 := htail (some wvn) (some wvd) dimkey func
                  (mk.filter (fun k2 => (getA f.vars k2).isSome)) f1 f4 h
                exact ⟨l1, by rw [h2, h1]⟩


/-- C9 fails as stated: the transformations are not pure.  `reduce_dim` (like
`slice_dim` and `extract`) mutates the Dataset it is given — `setattr` on
`f`, re-created Dimension objects, re-assigned variables — and returns that
same object, so the input's attributes do not survive the call: on the
example Dataset the file attribute tuple gains `history`. -/
theorem pure_ops_counterexample :
    (reduce_dim exReduceFile "lay,mean" true defaultMetakeys).map PFile.fncattrs
      = some ["history"] ∧
    exReduceFile.fncattrs = [] ∧
    (some ["history"] : Option (List String)) ≠ some ([] : List String) :=
  ⟨by decide, rfl, by decide⟩

/-- C9 amended: `slice_dim` and `reduce_dim` mutate the Dataset argument in
place and return it (the embedding returns the post-state of the argument):
every successful run appends at least its operation description to the file
attribute tuple via `history` (fuzzy recursion may append more first), so the
input object does not survive unchanged.  Only `getvarpnc` builds its result
afresh and leaves the source Dataset untouched. -/
theorem inplace_mutation_spec :
    (∀ (f : PFile) (sd : String) (fz : Bool) (f4 : PFile),
      slice_dim f sd fz = some f4 →
      ∃ l : List String, f4.fncattrs = f.fncattrs ++ l ++ ["history"]) ∧
    (∀ (f : PFile) (rd : String) (fz : Bool) (mk : List String) (f4 : PFile),
      reduce_dim f rd fz mk = some f4 →
      ∃ l : List String, f4.fncattrs = f.fncattrs ++ l ++ ["history"]) := by
  constructor
  · intro f sd fz f4 h
    exact slice_dimF_fncattrs (sliceFuel f) f sd fz f4 h
  · intro f rd fz mk f4 h
    exact reduce_dimF_fncattrs (sliceFuel f) f rd fz mk f4 h

/-- witness instantiating the amended C9: the successful reduction of the
example Dataset has the appended `history` in its recorded attribute tuple. -/
theorem inplace_mutation_spec_witness :
    ∃ l : List String,
      ((reduce_dim exReduceFile "lay,mean" true defaultMetakeys).getD pncFileNew).fncattrs
        = exReduceFile.fncattrs ++ l ++ ["history"] := by
  have hrun : reduce_dim exReduceFile "lay,mean" true defaultMetakeys
      = some ((reduce_dim exReduceFile "lay,mean" true defaultMetakeys).getD pncFileNew) := by
    have hsome : (reduce_dim exReduceFile "lay,mean" true defaultMetakeys).isSome = true := by
      decide
    rcases hx : reduce_dim exReduceFile "lay,mean" true defaultMetakeys with _ | x
    · rw [hx] at hsome
      exact absurd hsome (by simp)
    · rfl
  exact inplace_mutation_spec.2 exReduceFile "lay,mean" true defaultMetakeys _ hrun


/-! ### C8: variable-subset projection -/

theorem foldlM_eq_inv {α β γ : Type} (proj : β → γ) :
    ∀ (step : β → α → Option β) (l : List α) (b b2 : β),
      l.foldlM step b = some b2 →
      (∀ b3 a b4, step b3 a = some b4 → proj b4 = proj b3) →
      proj b2 = proj b := by
  intro step l
  induction l with
  | nil =>
    intro b b2 h _
    simp only [List.foldlM_nil] at h
    cases h
    rfl
  | cons a l ih =>
    intro b b2 h hstep
    simp only [List.foldlM_cons] at h
    rcases hs : step b a with _ | b1
    · rw [hs] at h
      simp at h
    · rw [hs] at h
      rw [show (some b1 >>= fun x => List.foldlM step x l)
        = List.foldlM step b1 l from rfl] at h
      rw [ih b1 b2 h hstep, hstep b a b1 hs]

theorem foldl_eq_inv {α β γ : Type} (proj : β → γ) :
    ∀ (step : β → α → β) (l : List α) (b : β),
      (∀ b2 a, proj (step b2 a) = proj b2) →
      proj (l.foldl step b) = proj b := by
  intro step l
  induction l with
  | nil => intro b _; rfl
  | cons a l ih =>
    intro b hstep
    rw [List.foldl_cons, ih (step b a) hstep, hstep]

theorem mem_insertSorted (x a : String) (l : List String) :
    a ∈ insertSorted x l ↔ a = x ∨ a ∈ l := by
  induction l with
  | nil => simp [insertSorted]
  | cons y ys ih =>
    unfold insertSorted
    rcases hle : strLeB x y with _ | _
    · simp only [Bool.false_eq_true, if_false, List.mem_cons, ih]
      tauto
    · simp only [eq_self_iff_true, if_true, List.mem_cons]

theorem mem_sortStr (a : String) (l : List String) : a ∈ sortStr l ↔ a ∈ l := by
  induction l with
  | nil => simp [sortStr]
  | cons x xs ih =>
    show a ∈ insertSorted x (sortStr xs) ↔ a ∈ x :: xs
    rw [mem_insertSorted, ih]
    simp [List.mem_cons]

theorem mem_dedupAux (a : String) : ∀ (l seen : List String),
    a ∈ dedupAux seen l ↔ a ∈ l ∧ a ∉ seen := by
  intro l
  induction l with
  | nil =>
    intro seen
    simp [dedupAux]
  | cons x xs ih =>
    intro seen
    unfold dedupAux
    rcases hc : seen.contains x with _ | _
    · have hx : x ∉ seen := by
        intro hm
        rw [(contains_iff_mem seen x).mpr hm] at hc
        cases hc
      simp only [Bool.false_eq_true, if_false, List.mem_cons, ih (x :: seen)]
      constructor
      · rintro (rfl | ⟨h1, h2⟩)
        · exact ⟨Or.inl rfl, hx⟩
        · exact ⟨Or.inr h1, fun hs => h2 (Or.inr hs)⟩
      · rintro ⟨h1 | h1, h2⟩
        · exact Or.inl h1
        · by_cases hax : a = x
          · exact Or.inl hax
          · refine Or.inr ⟨h1, ?_⟩
            rintro (he | hs2)
            · exact hax he
            · exact h2 hs2
    · have hx : x ∈ seen := (contains_iff_mem seen x).mp hc
      simp only [if_true, List.mem_cons, ih seen]
      constructor
      · rintro ⟨h1, h2⟩
        exact ⟨Or.inr h1, h2⟩
      · rintro ⟨h1 | h1, h2⟩
        · exact absurd hx (h1 ▸ h2)
        · exact ⟨h1, h2⟩

theorem mem_dedupFirst (a : String) (l : List String) : a ∈ dedupFirst l ↔ a ∈ l := by
  unfold dedupFirst
  rw [mem_dedupAux]
  simp


theorem putAttr_vars (g : PFile) (k : String) (v : PyV) : (g.putAttr k v).vars = g.vars := by
  unfold PFile.putAttr
  cases recordedName k <;> rfl

/-- the per-variable step of `getvarpnc` touches the output's variable
mapping only by cloning the requested variable from the source. -/
theorem gvpVarStep_vars (f : PFile) (st : PFile × List String) (varkey : String)
    (st2 : PFile × List String) (h : gvpVarStep f st varkey = some st2) :
    ∃ var, getA f.vars varkey = some var ∧ st2.1.vars = setA st.1.vars varkey var := by
  unfold gvpVarStep at h
  split at h
  · exact absurd h (by simp)
  · rename_i var hv
    dsimp only at h
    split at h
    · exact absurd h (by simp)
    · rename_i st1 hds
      cases h
      refine ⟨var, hv, ?_⟩
      have hdims : st1.1.vars = st.1.vars := by
        refine foldlM_eq_inv (fun (q : PFile × List String) => q.1.vars) _ _ st st1 hds ?_
        intro b a b2 hs
        split at hs
        · cases hs
          rfl
        · split at hs
          · exact absurd hs (by simp)
          · rename_i fd hfd
            rcases fd with ⟨flen, fu⟩
            cases fu
            · cases hs
              rfl
            · cases hs
              rfl
      have hcoord : (st1.2.foldl (fun (o : PFile) coordk =>
          match getA f.dimensions coordk with
          | some fd =>
            if (getA o.dimensions coordk).isSome then o
            else
              let o2 := o.createDimension coordk fd.len
              if fd.unlimited then o2.setDimUnlimited coordk true else o2
          | none => o) st1.1).vars = st1.1.vars := by
        refine foldl_eq_inv (fun (o : PFile) => o.vars) _ st1.2 st1.1 ?_
        intro b2 a
        rcases hd : getA f.dimensions a with _ | fd
        · simp only [hd]
        · simp only [hd]
          rcases fd with ⟨flen, fu⟩
          rcases hso : (getA b2.dimensions a).isSome with _ | _
          · simp only [hso, Bool.false_eq_true, if_false]
            cases fu
            · rfl
            · rfl
          · simp only [hso, if_true]
      show setA (st1.2.foldl _ st1.1).vars varkey var = setA st.1.vars varkey var
      rw [hcoord, hdims]


/-- invariant of the requested-variable loop of `getvarpnc`: the cumulative
output maps every processed key to its source variable, leaves other keys as
they were, and never invents variables absent from the source. -/
theorem gvpFold_vars (f : PFile) (ks : List String) :
    ∀ (st st2 : PFile × List String), ks.foldlM (gvpVarStep f) st = some st2 →
      (∀ k, k ∉ ks → getA st2.1.vars k = getA st.1.vars k) ∧
      (∀ k, k ∈ ks → getA st2.1.vars k = getA f.vars k) ∧
      (∀ k, getA st2.1.vars k = getA st.1.vars k ∨ getA st2.1.vars k = getA f.vars k) := by
  induction ks with
  | nil =>
    intro st st2 h
    simp only [List.foldlM_nil] at h
    cases h
    exact ⟨fun _ _ => rfl, fun k hk => absurd hk (by simp), fun _ => Or.inl rfl⟩
  | cons k0 ks ih =>
    intro st st2 h
    simp only [List.foldlM_cons] at h
    rcases hs : gvpVarStep f st k0 with _ | st1
    · rw [hs] at h
      simp at h
    · rw [hs] at h
      rw [show (some st1 >>= fun b => List.foldlM (gvpVarStep f) b ks)
        = List.foldlM (gvpVarStep f) st1 ks from rfl] at h
      obtain ⟨var0, hv0, hvars⟩ := gvpVarStep_vars f st k0 st1 hs
      obtain ⟨c1, c2, c3⟩ := ih st1 st2 h
      refine ⟨?_, ?_, ?_⟩
      · intro k hk
        rw [c1 k (fun hh => hk (List.mem_cons_of_mem k0 hh)), hvars]
        exact getA_setA_ne _ _ _ _ (fun e => hk (e ▸ List.mem_cons_self k0 ks))
      · intro k hk
        rcases List.mem_cons.mp hk with rfl | hm
        · by_cases hmem : k ∈ ks
          · exact c2 k hmem
          · rw [c1 k hmem, hvars, getA_setA_self]
            exact hv0.symm
        · exact c2 k hm
      · intro k
        by_cases hk0 : k = k0
        · subst hk0
          rcases c3 k with hcc | hcc
          · rw [hcc, hvars, getA_setA_self]
            exact Or.inr hv0.symm
          · exact Or.inr hcc
        · rcases c3 k with hcc | hcc
          · rw [hcc, hvars, getA_setA_ne _ _ _ _ hk0]
            exact Or.inl rfl
          · exact Or.inr hcc

/-- the trailing coordinate-variable loop of `getvarpnc` only clones source
variables into the output. -/
theorem coordVarFold_vars (f : PFile) (cks : List String) :
    ∀ (o : PFile),
      (∀ k, k ∉ cks → getA (cks.foldl (fun (o2 : PFile) coordkey =>
        match getA f.vars coordkey with
        | some coordvar => { o2 with vars := setA o2.vars coordkey coordvar }
        | none => o2) o).vars k = getA o.vars k) ∧
      (∀ k, getA (cks.foldl (fun (o2 : PFile) coordkey =>
          match getA f.vars coordkey with
          | some coordvar => { o2 with vars := setA o2.vars coordkey coordvar }
          | none => o2) o).vars k = getA o.vars k ∨
        getA (cks.foldl (fun (o2 : PFile) coordkey =>
          match getA f.vars coordkey with
          | some coordvar => { o2 with vars := setA o2.vars coordkey coordvar }
          | none => o2) o).vars k = getA f.vars k) := by
  induction cks with
  | nil => intro o; exact ⟨fun _ _ => rfl, fun _ => Or.inl rfl⟩
  | cons c cks ih =>
    intro o
    simp only [List.foldl_cons]
    rcases hc : getA f.vars c with _ | cv
    · simp only [hc]
      obtain ⟨c1, c2⟩ := ih o
      exact ⟨fun k hk => c1 k (fun hh => hk (List.mem_cons_of_mem c hh)), c2⟩
    · simp only [hc]
      obtain ⟨c1, c2⟩ := ih { o with vars := setA o.vars c cv }
      refine ⟨?_, ?_⟩
      · intro k hk
        rw [c1 k (fun hh => hk (List.mem_cons_of_mem c hh))]
        show getA (setA o.vars c cv) k = getA o.vars k
        exact getA_setA_ne _ _ _ _ (fun e => hk (e ▸ List.mem_cons_self c cks))
      · intro k
        rcases c2 k with hcc | hcc
        · by_cases hkc : k = c
          · subst hkc
            rw [hcc]
            right
            show getA (setA o.vars k cv) k = getA f.vars k
            rw [getA_setA_self, hc]
          · rw [hcc]
            left
            show getA (setA o.vars c cv) k = getA o.vars k
            exact getA_setA_ne _ _ _ _ hkc
        · exact Or.inr hcc


/-- C8 amended: `getvarpnc` warns about and drops every requested name absent
from the source (such names never appear in the result), and every surviving
requested variable appears in the result with its source content.  (The
dependency closure is one step only and an `nv` dimension is always created;
the counterexample records both.) -/
theorem getvarpnc_spec (f : PFile) (vks ck : List String) (out : PFile) (ws : List String)
    (hrun : getvarpnc f (some vks) ck = some (out, ws)) :
    ws = (if sortStr (dedupFirst (vks.filter (fun k => (keysA f.vars).contains k)))
        ≠ sortStr vks
      then ["Skipping " ++ joinSep ", " ((dedupFirst (sortStr vks)).filter (fun k =>
        !(sortStr (dedupFirst (vks.filter (fun k2 =>
          (keysA f.vars).contains k2)))).contains k))]
      else []) ∧
    (∀ k, k ∈ vks → (keysA f.vars).contains k = true → getA out.vars k = getA f.vars k) ∧
    (∀ k, getA f.vars k = none → getA out.vars k = none) := by
  unfold getvarpnc at hrun
  dsimp only at hrun
  split at hrun
  · exact absurd hrun (by simp)
  · rename_i st heq
    cases hrun
    have heq2 : List.foldlM (gvpVarStep f)
        (List.foldl (fun (o : PFile) k => o.putAttr k ((getA f.fattrs k).getD (.vstr "")))
          (pncFileNew.createDimension "nv" 2) f.fncattrs, dedupFirst ck)
        (sortStr (dedupFirst (List.filter (fun k => (keysA f.vars).contains k) vks)))
        = some st := by
      by_cases hne : sortStr (dedupFirst (List.filter (fun k =>
          (keysA f.vars).contains k) vks)) ≠ sortStr vks
      · simpa only [if_pos hne] using heq
      · simpa only [if_neg hne] using heq
    obtain ⟨g1, g2, g3⟩ := gvpFold_vars f _ _ _ heq2
    obtain ⟨d1, d2⟩ := coordVarFold_vars f st.2 st.1
    refine ⟨?_, ?_, ?_⟩
    · by_cases hne : sortStr (dedupFirst (List.filter (fun k =>
          (keysA f.vars).contains k) vks)) ≠ sortStr vks
      · simp only [if_pos hne]
      · simp only [if_neg hne]
    · intro k hk hcont
      have hmem : k ∈ sortStr (dedupFirst (List.filter (fun k2 =>
          (keysA f.vars).contains k2) vks)) :=
        (mem_sortStr _ _).mpr ((mem_dedupFirst _ _).mpr (List.mem_filter.mpr ⟨hk, hcont⟩))
      rcases d2 k with hdd | hdd
      · exact hdd.trans (g2 k hmem)
      · exact hdd
    · intro k hnone
      have hbase : getA (List.foldl (fun (o : PFile) k2 =>
          o.putAttr k2 ((getA f.fattrs k2).getD (.vstr "")))
          (pncFileNew.createDimension "nv" 2) f.fncattrs).vars k = none := by
        rw [foldl_eq_inv (fun (o : PFile) => o.vars) _ f.fncattrs _
          (fun b a => putAttr_vars b a _)]
        rfl
      rcases d2 k with hdd | hdd
      · rcases g3 k with hgg | hgg
        · exact hdd.trans (hgg.trans hbase)
        · exact hdd.trans (hgg.trans hnone)
      · exact hdd.trans hnone


/-- C8 fails as stated: the closure is not transitive and is padded.  On the
example Dataset, requesting `v` (plus the absent `zz`, which is warned about
and dropped) yields variables `v`, `x`, `x_bounds` — but the output's
dimensions are `nv` and `x`: the always-created `nv` dimension is not a
dependency of any requested variable, and dimension `y`, on which the
included coordinate variable `x` (and `x_bounds`) lives, is missing because
the one-step dimension scan never revisits the coordinate variables'
own dimension tuples. -/
theorem getvarpnc_counterexample :
    (getvarpnc exProjFile (some ["v", "zz"]) []).map
        (fun r => (keysA r.1.dimensions, keysA r.1.vars, r.2))
      = some (["nv", "x"], ["v", "x", "x_bounds"], ["Skipping zz"]) ∧
    (getA exProjFile.vars "x").map (fun v => v.dimensions) = some ["y"] ∧
    ("nv" ∈ (["nv", "x"] : List String) ∧ "y" ∉ (["nv", "x"] : List String)) :=
  ⟨by decide, by decide, by decide⟩

/-- witness instantiating the amended C8 on the example Dataset with the
request `["v", "zz"]`. -/
theorem getvarpnc_spec_witness :
    ((getvarpnc exProjFile (some ["v", "zz"]) []).getD (pncFileNew, [])).2
      = (if sortStr (dedupFirst ((["v", "zz"] : List String).filter
            (fun k => (keysA exProjFile.vars).contains k))) ≠ sortStr ["v", "zz"]
        then ["Skipping " ++ joinSep ", " ((dedupFirst (sortStr ["v", "zz"])).filter
          (fun k => !(sortStr (dedupFirst ((["v", "zz"] : List String).filter (fun k2 =>
            (keysA exProjFile.vars).contains k2)))).contains k))]
        else []) ∧
    (∀ k, k ∈ (["v", "zz"] : List String) → (keysA exProjFile.vars).contains k = true →
      getA ((getvarpnc exProjFile (some ["v", "zz"]) []).getD (pncFileNew, [])).1.vars k
        = getA exProjFile.vars k) ∧
    (∀ k, getA exProjFile.vars k = none →
      getA ((getvarpnc exProjFile (some ["v", "zz"]) []).getD (pncFileNew, [])).1.vars k
        = none) := by
  have hrun : getvarpnc exProjFile (some ["v", "zz"]) []
      = some ((getvarpnc exProjFile (some ["v", "zz"]) []).getD (pncFileNew, [])) := by
    have hsome : (getvarpnc exProjFile (some ["v", "zz"]) []).isSome = true := by decide
    rcases hx : getvarpnc exProjFile (some ["v", "zz"]) [] with _ | x
    · rw [hx] at hsome
      exact absurd hsome (by simp)
    · rfl
  exact getvarpnc_spec exProjFile ["v", "zz"] [] _ _ hrun

end PNC

